import Mathlib

/-! Rule 110 on a packed, sentinel-padded lattice.

A shallow embedding of `rule110.cpp`: the packed buffer record, the
four-lane transition kernel, the step loop of `simulate` with its boundary
masks, the tail mask, the popcount reduction and the lattice builder.

Conventions of the embedding.

* A `uint64_t` is a natural number below `2 ^ 64`; arithmetic that can leave
  that range is reduced modulo `2 ^ 64` where the source computes it.
* A buffer (`uint64_t *`) is a map from word index to word. Indices address
  words of one allocation, so index arithmetic is done in `Nat`.
* A `__m256i` is a record of four 64-bit lanes, lane 0 at the lowest address.
-/

namespace Rule110

/-! ## Machine words -/

/-- Bitwise complement of a 64-bit word, the C operator `~` on `uint64_t`. -/
def not64 (x : Nat) : Nat := (2 ^ 64 - 1) ^^^ x

/-- Scalar left shift of a `uint64_t` by a run-time count, the C operator
`<<`. A count of 64 or more is undefined in C++; the only target of the
program (x86-64, which the AVX2 intrinsics require) takes the count modulo
64, and that is what is modelled. -/
def shl64 (x n : Nat) : Nat := (x <<< (n % 64)) % 2 ^ 64

/-- Number of set bits of a 64-bit word: `std::popcount` on `uint64_t`. -/
def popcount (x : Nat) : Nat := (List.range 64).countP (fun b => x.testBit b)

/-! ## The 256-bit vector type and the intrinsics used -/

/-- Four 64-bit lanes, `l0` at the lowest address. -/
structure m256i where
  l0 : Nat
  l1 : Nat
  l2 : Nat
  l3 : Nat
deriving DecidableEq

/-- Lane-wise OR. -/
def _mm256_or_si256 (a b : m256i) : m256i :=
  ⟨a.l0 ||| b.l0, a.l1 ||| b.l1, a.l2 ||| b.l2, a.l3 ||| b.l3⟩

/-- Lane-wise XOR. -/
def _mm256_xor_si256 (a b : m256i) : m256i :=
  ⟨a.l0 ^^^ b.l0, a.l1 ^^^ b.l1, a.l2 ^^^ b.l2, a.l3 ^^^ b.l3⟩

/-- Lane-wise `(NOT a) AND b`. -/
def _mm256_andnot_si256 (a b : m256i) : m256i :=
  ⟨not64 a.l0 &&& b.l0, not64 a.l1 &&& b.l1, not64 a.l2 &&& b.l2, not64 a.l3 &&& b.l3⟩

/-- Left shift of one lane by an immediate: zero when the count exceeds 63. -/
def slli64 (x n : Nat) : Nat := if 63 < n then 0 else (x <<< n) % 2 ^ 64

/-- Logical right shift of one lane by an immediate: zero when the count exceeds 63. -/
def srli64 (x n : Nat) : Nat := if 63 < n then 0 else x >>> n

/-- Lane-wise left shift by an immediate. -/
def _mm256_slli_epi64 (a : m256i) (n : Nat) : m256i :=
  ⟨slli64 a.l0 n, slli64 a.l1 n, slli64 a.l2 n, slli64 a.l3 n⟩

/-- Lane-wise logical right shift by an immediate. -/
def _mm256_srli_epi64 (a : m256i) (n : Nat) : m256i :=
  ⟨srli64 a.l0 n, srli64 a.l1 n, srli64 a.l2 n, srli64 a.l3 n⟩

/-- Unaligned load of four consecutive words starting at word index `i`. -/
def _mm256_loadu_si256 (buf : Nat → Nat) (i : Nat) : m256i :=
  ⟨buf i, buf (i + 1), buf (i + 2), buf (i + 3)⟩

/-- Aligned load of four consecutive words starting at word index `i`; it
differs from the unaligned load only in the alignment it requires. -/
def _mm256_load_si256 (buf : Nat → Nat) (i : Nat) : m256i :=
  ⟨buf i, buf (i + 1), buf (i + 2), buf (i + 3)⟩

/-- Store of four lanes to the words `i .. i + 3`. -/
def _mm256_store_si256 (buf : Nat → Nat) (i : Nat) (v : m256i) : Nat → Nat :=
  fun w =>
    if w = i then v.l0
    else if w = i + 1 then v.l1
    else if w = i + 2 then v.l2
    else if w = i + 3 then v.l3
    else buf w

/-! ## The macros of the kernel -/

/-- `LOAD_CENTER(buf, group_idx)`: the four words of the group. -/
def LOAD_CENTER (buf : Nat → Nat) (group_idx : Nat) : m256i :=
  _mm256_load_si256 buf (group_idx * 4)

/-- `STORE_CENTER(buf, group_idx, v)`. -/
def STORE_CENTER (buf : Nat → Nat) (group_idx : Nat) (v : m256i) : Nat → Nat :=
  _mm256_store_si256 buf (group_idx * 4) v

/-- `LOAD_LEFT(buf, group_idx)`: four words starting one word before the group. -/
def LOAD_LEFT (buf : Nat → Nat) (group_idx : Nat) : m256i :=
  _mm256_loadu_si256 buf (group_idx * 4 - 1)

/-- `LOAD_RIGHT(buf, group_idx)`: four words starting one word after the group start. -/
def LOAD_RIGHT (buf : Nat → Nat) (group_idx : Nat) : m256i :=
  _mm256_loadu_si256 buf (group_idx * 4 + 1)

/-- `MAKE_LEFT(center, left_src)`. -/
def MAKE_LEFT (center left_src : m256i) : m256i :=
  _mm256_or_si256 (_mm256_slli_epi64 center 1) (_mm256_srli_epi64 left_src 63)

/-- `MAKE_RIGHT(center, right_src)`. -/
def MAKE_RIGHT (center right_src : m256i) : m256i :=
  _mm256_or_si256 (_mm256_srli_epi64 center 1) (_mm256_slli_epi64 right_src 63)

/-- `RULE110(left, center, right)`: `(center ^ right) | (~left & center)`. -/
def RULE110 (left center right : m256i) : m256i :=
  _mm256_or_si256 (_mm256_xor_si256 center right) (_mm256_andnot_si256 left center)

/-- Body of the group loop of `transform110_packed_avx` for one `group_idx`. -/
def transform_group (current_buffer next_buffer : Nat → Nat) (group_idx : Nat) : Nat → Nat :=
  let center := LOAD_CENTER current_buffer group_idx
  let left_src := LOAD_LEFT current_buffer group_idx
  let right_src := LOAD_RIGHT current_buffer group_idx
  let left := MAKE_LEFT center left_src
  let right := MAKE_RIGHT center right_src
  STORE_CENTER next_buffer group_idx (RULE110 left center right)

/-- The kernel `transform110_packed_avx`: the group loop runs `group_idx` from
`ghost_offset` up to `ghost_offset + groups - 1`; the result is the
destination buffer after the loop. -/
def transform110_packed_avx (current_buffer next_buffer : Nat → Nat)
    (groups ghost_offset : Nat) : Nat → Nat :=
  (List.range' ghost_offset groups).foldl
    (fun dst group_idx => transform_group current_buffer dst group_idx) next_buffer

/-! ## The packed buffer record -/

/-- The record `packed_buffer_t`. -/
structure packed_buffer where
  current_buffer : Nat → Nat
  next_buffer : Nat → Nat
  real_words : Nat
  groups : Nat
  padded_words : Nat
  ghost_offset : Nat
  seed_bits : Nat
  last_mask : Nat
  firstbit_mask : Nat
  lastbit_mask : Nat
  first_real_word : Nat
  last_real_word : Nat

/-- Replace word `i` of a buffer. -/
def setWord (buf : Nat → Nat) (i v : Nat) : Nat → Nat :=
  fun w => if w = i then v else buf w

/-- The two boundary statements of a step,
`next_buffer[first_real_word] &= firstbit_mask` and then
`next_buffer[last_real_word] &= lastbit_mask`, applied to the buffer `buf`. -/
def clear_boundary_bits (p : packed_buffer) (buf : Nat → Nat) : Nat → Nat :=
  let b1 := setWord buf p.first_real_word (buf p.first_real_word &&& p.firstbit_mask)
  setWord b1 p.last_real_word (b1 p.last_real_word &&& p.lastbit_mask)

/-- One iteration of the step loop of `simulate`: kernel, boundary masks, swap. -/
def simulate_step (p : packed_buffer) : packed_buffer :=
  let nb := transform110_packed_avx p.current_buffer p.next_buffer p.groups p.ghost_offset
  let nb := clear_boundary_bits p nb
  { p with current_buffer := nb, next_buffer := p.current_buffer }

/-- The step loop of `simulate`, `steps` iterations. -/
def simulate_loop : Nat → packed_buffer → packed_buffer
  | 0, p => p
  | s + 1, p => simulate_loop s (simulate_step p)

/-- The reduction loop of `simulate`: `one_count` is a `uint64_t` accumulator. -/
def count_ones (p : packed_buffer) : Nat :=
  (List.range p.real_words).foldl
    (fun one_count i => (one_count + popcount (p.current_buffer (p.first_real_word + i))) % 2 ^ 64) 0

/-- The statement after the loop, `next_buffer[last_real_word] &= last_mask`. -/
def clear_excess (p : packed_buffer) : packed_buffer :=
  { p with next_buffer :=
      setWord p.next_buffer p.last_real_word (p.next_buffer p.last_real_word &&& p.last_mask) }

/-- The function `simulate`: the number printed, and the record as it is left. -/
def simulate (steps : Nat) (packed_sol : packed_buffer) : Nat × packed_buffer :=
  if packed_sol.real_words = 0 then (0, packed_sol)
  else
    let p := clear_excess (simulate_loop steps packed_sol)
    (count_ones p, p)

/-! ## The lattice builder -/

/-- The packing loop of `read_bits_from_file_packed`, from character index `i` on. -/
def pack_bits (data_offset : Nat) : List Char → Nat → (Nat → Nat) → (Nat → Nat)
  | [], _, buf => buf
  | c :: cs, i, buf =>
    pack_bits data_offset cs (i + 1)
      (if c = '1' then
        setWord buf ((i >>> 6) + data_offset)
          (buf ((i >>> 6) + data_offset) ||| (1 <<< (i &&& 63)))
      else buf)

/-- The function `read_bits_from_file_packed` on the two values read from the
file: the decimal length `seed_bits` and the token `config`. The field
`firstbit_mask` keeps its default member initialiser `~1ULL`; `padded_words`
is given the value of its second assignment. -/
def read_bits_from_file_packed (seed_bits : Nat) (config : List Char) : packed_buffer :=
  let real_words := ((seed_bits + 63) % 2 ^ 64) >>> 6
  let groups := ((real_words + 3) % 2 ^ 64) >>> 2
  let bits_in_last_pack := seed_bits &&& 63
  let last_mask := ((1 <<< bits_in_last_pack) - 1) ||| (if bits_in_last_pack = 0 then 2 ^ 64 - 1 else 0)
  let last_bit_idx := if seed_bits = 0 then 0 else seed_bits - 1
  let lastbit_mask := not64 (shl64 1 last_bit_idx &&& 63)
  let ghost_offset := 2
  let padded_words := ((groups + 4) <<< 2) % 2 ^ 64
  let first_real_word := ghost_offset * 4
  let last_word := last_bit_idx >>> 6
  let last_real_word := (first_real_word + last_word) % 2 ^ 64
  let data_offset := ghost_offset * 4
  { current_buffer := pack_bits data_offset config 0 (fun _ => 0)
    next_buffer := fun _ => 0
    real_words := real_words
    groups := groups
    padded_words := padded_words
    ghost_offset := ghost_offset
    seed_bits := seed_bits
    last_mask := last_mask
    firstbit_mask := not64 1
    lastbit_mask := lastbit_mask
    first_real_word := first_real_word
    last_real_word := last_real_word }

/-! ## Lattice view and the reference rule -/

/-- Bit at global position `p` of a buffer: bit `p mod 64` of word `p / 64`. -/
def bitAt (buf : Nat → Nat) (p : Nat) : Bool := (buf (p / 64)).testBit (p % 64)

/-- Lattice cell `i` of a buffer whose real data starts at word `first_real_word`. -/
def cellAt (buf : Nat → Nat) (first_real_word i : Nat) : Bool :=
  (buf (first_real_word + i / 64)).testBit (i % 64)

/-- The canonical Rule 110 truth table (left, center, right). -/
def truthTable110 : Bool → Bool → Bool → Bool
  | true, true, true => false
  | true, true, false => true
  | true, false, true => true
  | true, false, false => false
  | false, true, true => true
  | false, true, false => true
  | false, false, true => true
  | false, false, false => false

/-- Reference Rule 110 step on a finite lattice: every cell outside the lattice
is read as dead. -/
def refStep (c : List Bool) : List Bool :=
  (List.range c.length).map fun i =>
    truthTable110 (if i = 0 then false else c.getD (i - 1) false) (c.getD i false)
      (c.getD (i + 1) false)

/-- The `k`-th iterate of the reference step. -/
def refIter : Nat → List Bool → List Bool
  | 0, c => c
  | k + 1, c => refIter k (refStep c)

/-- Initial lattice described by a token: a cell is live exactly where the
character is `1`. -/
def tokenBits (config : List Char) : List Bool := config.map (fun ch => decide (ch = '1'))

/-- One lane of `RULE110 (MAKE_LEFT c l) c (MAKE_RIGHT c r)`. -/
def lane110 (l c r : Nat) : Nat :=
  (c ^^^ (srli64 c 1 ||| slli64 r 63)) ||| (not64 (slli64 c 1 ||| srli64 l 63) &&& c)

/-- Words of a buffer are `uint64_t` values. -/
def WordBuf (buf : Nat → Nat) : Prop := ∀ w, buf w < 2 ^ 64

/-- The layout that `read_bits_from_file_packed` computes for a lattice of
`N` cells, as the step loop sees it. -/
structure Layout (N : Nat) (p : packed_buffer) : Prop where
  ghost : p.ghost_offset = 2
  first : p.first_real_word = 8
  last : p.last_real_word = 8 + (N - 1) / 64
  words : p.real_words = (N + 63) / 64
  grp : p.groups = ((N + 63) / 64 + 3) / 4
  fmask : p.firstbit_mask = 2 ^ 64 - 2
  lmask : p.lastbit_mask = not64 (shl64 1 (N - 1) &&& 63)

/-- Every set bit of the buffer sits at a lattice position in `[0, N)`, the
real data starting at word 8. -/
def InLattice (N : Nat) (buf : Nat → Nat) : Prop :=
  ∀ w b, (buf w).testBit b = true → 8 ≤ w ∧ b < 64 ∧ 64 * (w - 8) + b < N

/-- The words outside the block range of the kernel are zero. -/
def GhostZero (groups : Nat) (buf : Nat → Nat) : Prop :=
  ∀ w, w < 8 ∨ 8 + 4 * groups ≤ w → buf w = 0

/-- Invariant of the step loop on a built state. -/
structure StepInv (N : Nat) (p : packed_buffer) : Prop where
  layout : Layout N p
  cur : InLattice N p.current_buffer
  nxt : GhostZero p.groups p.next_buffer

/-- The step the code is written to perform on the lattice: the truth table
with dead cells outside, then the two boundary cells 0 and `N - 1` forced dead. -/
def designStep (c : List Bool) : List Bool :=
  ((refStep c).set 0 false).set (c.length - 1) false

/-- The `k`-th iterate of `designStep`. -/
def designIter : Nat → List Bool → List Bool
  | 0, c => c
  | k + 1, c => designIter k (designStep c)

/-- The value of one cell under the reference step. -/
def refCell (c : List Bool) (i : Nat) : Bool :=
  truthTable110 (if i = 0 then false else c.getD (i - 1) false) (c.getD i false)
    (c.getD (i + 1) false)

/-- The current buffer of `p` holds the lattice `c`, and the last cell is one
that the last-bit mask clears or that is dead. -/
structure Rep (N : Nat) (p : packed_buffer) (c : List Bool) : Prop where
  inv : StepInv N p
  len : c.length = N
  cells : ∀ i, cellAt p.current_buffer 8 i = c.getD i false
  last : (N - 1) % 64 < 6 ∨ c.getD (N - 1) false = false

/-- The group loop of `transform110_packed_avx` run over the groups in the
order given by a list instead of in ascending order. -/
def transform110_in_order (current_buffer next_buffer : Nat → Nat) (order : List Nat) :
    Nat → Nat :=
  order.foldl (fun dst group_idx => transform_group current_buffer dst group_idx) next_buffer

/-- An iteration of the step loop whose kernel call processes the groups in
the given order. -/
def simulate_step_in_order (p : packed_buffer) (order : List Nat) : packed_buffer :=
  let nb := transform110_in_order p.current_buffer p.next_buffer order
  let nb := clear_boundary_bits p nb
  { p with current_buffer := nb, next_buffer := p.current_buffer }

/-- The step loop with one group order for each iteration. -/
def simulate_loop_in_order : List (List Nat) → packed_buffer → packed_buffer
  | [], p => p
  | order :: orders, p => simulate_loop_in_order orders (simulate_step_in_order p order)

/-- The reduction of `simulate` over a list of word offsets, with a `uint64_t`
accumulator starting at 0. -/
def count_ones_over (p : packed_buffer) (part : List Nat) : Nat :=
  part.foldl
    (fun one_count i => (one_count + popcount (p.current_buffer (p.first_real_word + i))) % 2 ^ 64) 0

/-- The reduction split into parts: each part is summed on its own and the
subtotals are added into a `uint64_t` total. -/
def count_ones_parts (p : packed_buffer) (parts : List (List Nat)) : Nat :=
  parts.foldl (fun total part => (total + count_ones_over p part) % 2 ^ 64) 0

/-- Word indices that `LOAD_CENTER` reads and `STORE_CENTER` writes for a group. -/
def center_words (group_idx : Nat) : List Nat :=
  [group_idx * 4, group_idx * 4 + 1, group_idx * 4 + 2, group_idx * 4 + 3]

/-- Word indices that `LOAD_LEFT` reads for a group. -/
def left_words (group_idx : Nat) : List Nat :=
  [group_idx * 4 - 1, group_idx * 4 - 1 + 1, group_idx * 4 - 1 + 2, group_idx * 4 - 1 + 3]

/-- Word indices that `LOAD_RIGHT` reads for a group. -/
def right_words (group_idx : Nat) : List Nat :=
  [group_idx * 4 + 1, group_idx * 4 + 1 + 1, group_idx * 4 + 1 + 2, group_idx * 4 + 1 + 3]

/-! # Theorems -/

/-! ## Bits of one lane of the kernel -/

theorem not64_testBit (x b : Nat) :
    (not64 x).testBit b = Bool.xor (decide (b < 64)) (x.testBit b) := by
  unfold not64
  rw [Nat.testBit_xor, Nat.testBit_two_pow_sub_one]

theorem testBit_of_lt64 {x b : Nat} (hx : x < 2 ^ 64) (hb : 64 ≤ b) : x.testBit b = false :=
  Nat.testBit_lt_two_pow (lt_of_lt_of_le hx (Nat.pow_le_pow_right (by norm_num) hb))

theorem lane110_lt (l c r : Nat) (hc : c < 2 ^ 64) : lane110 l c r < 2 ^ 64 := by
  unfold lane110
  apply Nat.or_lt_two_pow
  · apply Nat.xor_lt_two_pow hc
    apply Nat.or_lt_two_pow
    · simp only [srli64]
      rw [if_neg (by norm_num), Nat.shiftRight_eq_div_pow]
      exact lt_of_le_of_lt (Nat.div_le_self _ _) hc
    · simp only [slli64]
      rw [if_neg (by norm_num)]
      exact Nat.mod_lt _ (by norm_num)
  · exact Nat.and_lt_two_pow _ hc

theorem lane110_testBit (l c r b : Nat) (hl : l < 2 ^ 64) (hc : c < 2 ^ 64) (hb : b < 64) :
    (lane110 l c r).testBit b =
      truthTable110 (if b = 0 then l.testBit 63 else c.testBit (b - 1)) (c.testBit b)
        (if b = 63 then r.testBit 0 else c.testBit (b + 1)) := by
  have h63 : ¬ (63 < 63) := by norm_num
  have h1 : ¬ (63 < 1) := by norm_num
  simp only [lane110, slli64, srli64, if_neg h63, if_neg h1, Nat.testBit_or, Nat.testBit_xor,
    Nat.testBit_and, not64_testBit, Nat.testBit_mod_two_pow, Nat.testBit_shiftLeft,
    Nat.testBit_shiftRight, hb, decide_True, Bool.true_and]
  by_cases hb0 : b = 0
  · subst hb0
    show (Bool.xor (c.testBit 0) (c.testBit 1 || false && r.testBit 0) ||
      (Bool.xor true (false && c.testBit 0 || l.testBit 63)) && c.testBit 0) =
        truthTable110 (l.testBit 63) (c.testBit 0) (c.testBit 1)
    cases l.testBit 63 <;> cases c.testBit 0 <;> cases c.testBit 1 <;> rfl
  · by_cases hb63 : b = 63
    · subst hb63
      have hc64 : c.testBit 64 = false := testBit_of_lt64 hc (le_refl _)
      have hl126 : l.testBit 126 = false := testBit_of_lt64 hl (by norm_num)
      show (Bool.xor (c.testBit 63) (c.testBit 64 || true && r.testBit 0) ||
        (Bool.xor true (true && c.testBit 62 || l.testBit 126)) && c.testBit 63) =
          truthTable110 (c.testBit 62) (c.testBit 63) (r.testBit 0)
      rw [hc64, hl126]
      cases c.testBit 62 <;> cases c.testBit 63 <;> cases r.testBit 0 <;> rfl
    · have hl63 : l.testBit (63 + b) = false := testBit_of_lt64 hl (by omega)
      have e1 : 1 + b = b + 1 := by omega
      have hge : decide (b ≥ 1) = true := decide_eq_true (by omega)
      have hnot : decide (b ≥ 63) = false := decide_eq_false (by omega)
      rw [hl63, e1, hge, hnot, if_neg hb0, if_neg hb63]
      cases c.testBit (b - 1) <;> cases c.testBit b <;> cases c.testBit (b + 1) <;> rfl

/-! ## The kernel, word by word -/

theorem transform_group_apply (src dst : Nat → Nat) (g w : Nat) (hg : 1 ≤ g) :
    transform_group src dst g w =
      if 4 * g ≤ w ∧ w < 4 * g + 4 then lane110 (src (w - 1)) (src w) (src (w + 1))
      else dst w := by
  simp only [transform_group, STORE_CENTER, LOAD_CENTER, LOAD_LEFT, LOAD_RIGHT, MAKE_LEFT,
    MAKE_RIGHT, RULE110, _mm256_store_si256, _mm256_loadu_si256, _mm256_load_si256,
    _mm256_or_si256, _mm256_xor_si256, _mm256_andnot_si256, _mm256_slli_epi64,
    _mm256_srli_epi64, lane110]
  by_cases h0 : w = g * 4
  · subst h0
    rw [if_pos rfl, if_pos (by omega)]
  · rw [if_neg h0]
    by_cases h1 : w = g * 4 + 1
    · subst h1
      rw [if_pos rfl, if_pos (by omega)]
      have e1 : g * 4 + 1 - 1 = g * 4 - 1 + 1 := by omega
      have e2 : g * 4 + 1 + 1 = g * 4 + 1 + 1 := rfl
      rw [e1]
    · rw [if_neg h1]
      by_cases h2 : w = g * 4 + 2
      · subst h2
        rw [if_pos rfl, if_pos (by omega)]
        have e1 : g * 4 + 2 - 1 = g * 4 - 1 + 2 := by omega
        have e2 : g * 4 + 2 + 1 = g * 4 + 1 + 2 := by omega
        rw [e1, e2]
      · rw [if_neg h2]
        by_cases h3 : w = g * 4 + 3
        · subst h3
          rw [if_pos rfl, if_pos (by omega)]
          have e1 : g * 4 + 3 - 1 = g * 4 - 1 + 3 := by omega
          have e2 : g * 4 + 3 + 1 = g * 4 + 1 + 3 := by omega
          rw [e1, e2]
        · rw [if_neg h3, if_neg (by omega)]

theorem transform_apply (src dst : Nat → Nat) (groups go w : Nat) (hgo : 1 ≤ go) :
    transform110_packed_avx src dst groups go w =
      if 4 * go ≤ w ∧ w < 4 * (go + groups) then lane110 (src (w - 1)) (src w) (src (w + 1))
      else dst w := by
  unfold transform110_packed_avx
  induction groups generalizing w with
  | zero =>
    rw [if_neg (by omega)]
    rfl
  | succ n ih =>
    rw [List.range'_1_concat, List.foldl_append, List.foldl_cons, List.foldl_nil,
      transform_group_apply _ _ _ _ (by omega : 1 ≤ go + n), ih]
    by_cases h1 : 4 * (go + n) ≤ w ∧ w < 4 * (go + n) + 4
    · rw [if_pos h1, if_pos (by omega)]
    · rw [if_neg h1]
      by_cases h2 : 4 * go ≤ w ∧ w < 4 * (go + n)
      · rw [if_pos h2, if_pos (by omega)]
      · rw [if_neg h2, if_neg (by omega)]

theorem bitAt_pred (src : Nat → Nat) (w b : Nat) (hb : b < 64) (hw : 1 ≤ w) :
    bitAt src (64 * w + b - 1) =
      if b = 0 then (src (w - 1)).testBit 63 else (src w).testBit (b - 1) := by
  unfold bitAt
  by_cases h : b = 0
  · subst h
    rw [if_pos rfl]
    have e1 : (64 * w + 0 - 1) / 64 = w - 1 := by omega
    have e2 : (64 * w + 0 - 1) % 64 = 63 := by omega
    rw [e1, e2]
  · rw [if_neg h]
    have e1 : (64 * w + b - 1) / 64 = w := by omega
    have e2 : (64 * w + b - 1) % 64 = b - 1 := by omega
    rw [e1, e2]

theorem bitAt_self (src : Nat → Nat) (w b : Nat) (hb : b < 64) :
    bitAt src (64 * w + b) = (src w).testBit b := by
  unfold bitAt
  have e1 : (64 * w + b) / 64 = w := by omega
  have e2 : (64 * w + b) % 64 = b := by omega
  rw [e1, e2]

theorem bitAt_succ (src : Nat → Nat) (w b : Nat) (hb : b < 64) :
    bitAt src (64 * w + b + 1) =
      if b = 63 then (src (w + 1)).testBit 0 else (src w).testBit (b + 1) := by
  unfold bitAt
  by_cases h : b = 63
  · subst h
    rw [if_pos rfl]
    have e1 : (64 * w + 63 + 1) / 64 = w + 1 := by omega
    have e2 : (64 * w + 63 + 1) % 64 = 0 := by omega
    rw [e1, e2]
  · rw [if_neg h]
    have e1 : (64 * w + b + 1) / 64 = w := by omega
    have e2 : (64 * w + b + 1) % 64 = b + 1 := by omega
    rw [e1, e2]

theorem transform_testBit (src dst : Nat → Nat) (groups go w b : Nat) (hsrc : WordBuf src)
    (hgo : 1 ≤ go) (hw1 : 4 * go ≤ w) (hw2 : w < 4 * (go + groups)) (hb : b < 64) :
    (transform110_packed_avx src dst groups go w).testBit b =
      truthTable110 (bitAt src (64 * w + b - 1)) (bitAt src (64 * w + b))
        (bitAt src (64 * w + b + 1)) := by
  rw [transform_apply _ _ _ _ _ hgo, if_pos ⟨hw1, hw2⟩,
    lane110_testBit _ _ _ _ (hsrc _) (hsrc _) hb, bitAt_pred _ _ _ hb (by omega),
    bitAt_self _ _ _ hb, bitAt_succ _ _ _ hb]

/-! ## The layout and the step loop -/

theorem read_layout (N : Nat) (config : List Char) (h1 : 1 ≤ N) (h2 : N ≤ 2 ^ 64 - 64) :
    Layout N (read_bits_from_file_packed N config) := by
  have hN : N + 63 < 2 ^ 64 := by omega
  have hrw : (N + 63) / 64 + 3 < 2 ^ 64 := by omega
  have hne : N ≠ 0 := by omega
  have hlw : 2 * 4 + (N - 1) / 64 < 2 ^ 64 := by omega
  constructor
  · rfl
  · rfl
  · show (2 * 4 + (if N = 0 then 0 else N - 1) >>> 6) % 2 ^ 64 = 8 + (N - 1) / 64
    rw [if_neg hne, Nat.shiftRight_eq_div_pow, Nat.mod_eq_of_lt hlw]
  · show ((N + 63) % 2 ^ 64) >>> 6 = (N + 63) / 64
    rw [Nat.mod_eq_of_lt hN, Nat.shiftRight_eq_div_pow]
  · show ((((N + 63) % 2 ^ 64) >>> 6 + 3) % 2 ^ 64) >>> 2 = ((N + 63) / 64 + 3) / 4
    rw [Nat.mod_eq_of_lt hN, Nat.shiftRight_eq_div_pow, Nat.shiftRight_eq_div_pow,
      Nat.mod_eq_of_lt hrw]
  · rfl
  · show not64 (shl64 1 (if N = 0 then 0 else N - 1) &&& 63) = not64 (shl64 1 (N - 1) &&& 63)
    rw [if_neg hne]

theorem layout_step {N : Nat} {p : packed_buffer} (h : Layout N p) :
    Layout N (simulate_step p) :=
  ⟨h.ghost, h.first, h.last, h.words, h.grp, h.fmask, h.lmask⟩

theorem layout_groups {N : Nat} {p : packed_buffer} (h : Layout N p) (h1 : 1 ≤ N) :
    N ≤ 256 * p.groups ∧ (N - 1) / 64 < 4 * p.groups := by
  rw [h.grp]
  omega

theorem clear_boundary_testBit (p : packed_buffer) (buf : Nat → Nat) (w b : Nat) :
    (clear_boundary_bits p buf w).testBit b =
      ((buf w).testBit b && (!decide (w = p.first_real_word) || p.firstbit_mask.testBit b)
        && (!decide (w = p.last_real_word) || p.lastbit_mask.testBit b)) := by
  unfold clear_boundary_bits setWord
  by_cases hl : w = p.last_real_word
  · by_cases hf : w = p.first_real_word
    · have hlf : p.last_real_word = p.first_real_word := by rw [← hl, hf]
      simp [hl, hlf, Nat.testBit_and]
    · have hlf : ¬ (p.last_real_word = p.first_real_word) := by rw [← hl]; exact hf
      simp [hl, hlf, Nat.testBit_and]
  · by_cases hf : w = p.first_real_word
    · have hfl : ¬ (p.first_real_word = p.last_real_word) := by rw [← hf]; exact hl
      subst hf
      simp [hfl, Nat.testBit_and]
    · simp [hl, hf]

theorem clear_boundary_sub (p : packed_buffer) (buf : Nat → Nat) (w b : Nat)
    (h : (clear_boundary_bits p buf w).testBit b = true) : (buf w).testBit b = true := by
  rw [clear_boundary_testBit] at h
  simp only [Bool.and_eq_true] at h
  exact h.1.1

theorem firstbit_testBit (b : Nat) :
    (2 ^ 64 - 2 : Nat).testBit b = (decide (b < 64) && !decide (b = 0)) := by
  have e : (2 ^ 64 - 2 : Nat) = not64 1 := by decide
  rw [e, not64_testBit]
  have h1 : (1 : Nat) = 2 ^ 0 := rfl
  rw [h1, Nat.testBit_two_pow]
  by_cases hb : b = 0
  · subst hb; rfl
  · have : ¬ (0 = b) := fun h => hb h.symm
    simp [hb, this]

theorem lastbit_testBit (idx b : Nat) (hb : b < 64)
    (h : (not64 (shl64 1 idx &&& 63)).testBit b = false) : b = idx % 64 := by
  rw [not64_testBit, Nat.testBit_and] at h
  simp only [hb, decide_True, Bool.true_xor, Bool.not_eq_false_eq_eq_true, Bool.and_eq_true] at h
  have h1 := h.1
  unfold shl64 at h1
  rw [Nat.testBit_mod_two_pow, Nat.one_shiftLeft, Nat.testBit_two_pow] at h1
  simp only [Bool.and_eq_true, decide_eq_true_eq] at h1
  exact h1.2.symm

/-! ## The packing loop -/

theorem and63 (i : Nat) : i &&& 63 = i % 64 := Nat.and_pow_two_sub_one_eq_mod i 6

theorem shr6 (i : Nat) : i >>> 6 = i / 64 := Nat.shiftRight_eq_div_pow i 6

theorem tokenBits_cons (c : Char) (cs : List Char) :
    tokenBits (c :: cs) = decide (c = '1') :: tokenBits cs := rfl

theorem pack_word_testBit (c : Char) (off i : Nat) (buf : Nat → Nat) (w b : Nat) :
    ((if c = '1' then setWord buf (i / 64 + off) (buf (i / 64 + off) ||| 1 <<< (i % 64))
      else buf) w).testBit b =
      ((buf w).testBit b || (decide (c = '1') && decide (w = i / 64 + off) && decide (i % 64 = b))) := by
  by_cases hc : c = '1'
  · rw [if_pos hc]
    unfold setWord
    by_cases hw : w = i / 64 + off
    · rw [if_pos hw, Nat.testBit_or, Nat.one_shiftLeft, Nat.testBit_two_pow, ← hw]
      simp [hc, hw]
    · rw [if_neg hw]
      simp [hw]
  · rw [if_neg hc]
    simp [hc]

theorem pack_bits_testBit (off : Nat) (cs : List Char) (i : Nat) (buf : Nat → Nat) (w b : Nat) :
    (pack_bits off cs i buf w).testBit b =
      ((buf w).testBit b ||
        (decide (b < 64) && decide (off ≤ w) && decide (i ≤ 64 * (w - off) + b) &&
          (tokenBits cs).getD (64 * (w - off) + b - i) false)) := by
  induction cs generalizing i buf with
  | nil => simp [pack_bits, tokenBits]
  | cons c cs ih =>
    unfold pack_bits
    rw [ih, tokenBits_cons, and63, shr6, pack_word_testBit]
    by_cases hb : b < 64
    swap
    · have h1 : ¬ (i % 64 = b) := by omega
      simp [hb, h1]
    by_cases hw : off ≤ w
    swap
    · have h1 : ¬ (w = i / 64 + off) := by omega
      simp [hw, h1]
    rcases Nat.lt_trichotomy (64 * (w - off) + b) i with hlt | heq | hgt
    · have h1 : ¬ (i + 1 ≤ 64 * (w - off) + b) := by omega
      have h2 : ¬ (i ≤ 64 * (w - off) + b) := by omega
      have h3 : ¬ (w = i / 64 + off ∧ i % 64 = b) := by omega
      by_cases hw2 : w = i / 64 + off
      · have h4 : ¬ (i % 64 = b) := fun h => h3 ⟨hw2, h⟩
        simp [h1, h2, h4]
      · simp [h1, h2, hw2]
    · have hw2 : w = i / 64 + off := by omega
      have hb2 : i % 64 = b := by omega
      have h1 : ¬ (i + 1 ≤ 64 * (w - off) + b) := by omega
      have h2 : 64 * (w - off) + b - i = 0 := by omega
      have h3 : i ≤ 64 * (w - off) + b := by omega
      rw [h2, List.getD_cons_zero]
      simp [h1, h3, hb, hw, hb2, ← hw2]
    · have h1 : i + 1 ≤ 64 * (w - off) + b := by omega
      have h2 : i ≤ 64 * (w - off) + b := by omega
      have h3 : 64 * (w - off) + b - i = (64 * (w - off) + b - (i + 1)) + 1 := by omega
      have h4 : ¬ (w = i / 64 + off ∧ i % 64 = b) := by omega
      rw [h3, List.getD_cons_succ]
      by_cases hw2 : w = i / 64 + off
      · have h5 : ¬ (i % 64 = b) := fun h => h4 ⟨hw2, h⟩
        simp [h1, h2, h5]
      · simp [h1, h2, hw2]

/-! ## The built state -/

theorem read_testBit (N : Nat) (config : List Char) (w b : Nat) :
    ((read_bits_from_file_packed N config).current_buffer w).testBit b =
      (decide (b < 64) && decide (8 ≤ w) && (tokenBits config).getD (64 * (w - 8) + b) false) := by
  show (pack_bits 8 config 0 (fun _ => 0) w).testBit b = _
  rw [pack_bits_testBit]
  simp

theorem tokenBits_length (config : List Char) : (tokenBits config).length = config.length := by
  simp [tokenBits]

theorem getD_true_lt {l : List Bool} {i : Nat} (h : l.getD i false = true) : i < l.length := by
  by_contra hn
  rw [List.getD_eq_default _ _ (by omega)] at h
  exact Bool.noConfusion h

theorem read_inLattice (N : Nat) (config : List Char) (hlen : config.length ≤ N) :
    InLattice N (read_bits_from_file_packed N config).current_buffer := by
  intro w b h
  rw [read_testBit] at h
  simp only [Bool.and_eq_true, decide_eq_true_eq] at h
  have := getD_true_lt h.2
  rw [tokenBits_length] at this
  exact ⟨h.1.2, h.1.1, by omega⟩

theorem read_cellAt (N : Nat) (config : List Char) (i : Nat) :
    cellAt (read_bits_from_file_packed N config).current_buffer 8 i =
      (tokenBits config).getD i false := by
  unfold cellAt
  rw [read_testBit]
  have h1 : i % 64 < 64 := Nat.mod_lt _ (by norm_num)
  have h2 : 64 * (8 + i / 64 - 8) + i % 64 = i := by omega
  rw [h2]
  simp [h1]

theorem read_next (N : Nat) (config : List Char) (w : Nat) :
    (read_bits_from_file_packed N config).next_buffer w = 0 := rfl

/-! ## The lattice invariant of the step loop -/

theorem inLattice_wordBuf {N : Nat} {buf : Nat → Nat} (h : InLattice N buf) : WordBuf buf := by
  intro w
  apply Nat.lt_pow_two_of_testBit
  intro b hb
  by_contra hn
  have := h w b (by simpa using hn)
  omega

theorem inLattice_bitAt_high {N : Nat} {buf : Nat → Nat} (h : InLattice N buf) (q : Nat)
    (hq : 512 + N ≤ q) : bitAt buf q = false := by
  by_contra hn
  have := h (q / 64) (q % 64) (by simpa [bitAt] using hn)
  omega

theorem inLattice_bitAt_low {N : Nat} {buf : Nat → Nat} (h : InLattice N buf) (q : Nat)
    (hq : q < 512) : bitAt buf q = false := by
  by_contra hn
  have := h (q / 64) (q % 64) (by simpa [bitAt] using hn)
  omega

theorem inLattice_ghost {N groups : Nat} {buf : Nat → Nat} (h : InLattice N buf)
    (hg : N ≤ 256 * groups) : GhostZero groups buf := by
  intro w hw
  apply Nat.eq_of_testBit_eq
  intro b
  rw [Nat.zero_testBit]
  by_contra hn
  have := h w b (by simpa using hn)
  omega

theorem truthTable110_dead (x : Bool) : truthTable110 x false false = false := by
  cases x <;> rfl

theorem step_current (p : packed_buffer) :
    (simulate_step p).current_buffer =
      clear_boundary_bits p
        (transform110_packed_avx p.current_buffer p.next_buffer p.groups p.ghost_offset) := rfl

theorem step_next (p : packed_buffer) : (simulate_step p).next_buffer = p.current_buffer := rfl

theorem step_inLattice {N : Nat} {p : packed_buffer} (hL : Layout N p)
    (hc : InLattice N p.current_buffer) (hn : GhostZero p.groups p.next_buffer) :
    InLattice N (simulate_step p).current_buffer := by
  intro w b h
  rw [step_current] at h
  have ht := clear_boundary_sub _ _ _ _ h
  rw [hL.ghost] at ht
  have hW := inLattice_wordBuf hc
  by_cases hr : 4 * 2 ≤ w ∧ w < 4 * (2 + p.groups)
  · have hlt : transform110_packed_avx p.current_buffer p.next_buffer p.groups 2 w < 2 ^ 64 := by
      rw [transform_apply _ _ _ _ _ (by norm_num), if_pos hr]
      exact lane110_lt _ _ _ (hW _)
    have hb : b < 64 := by
      by_contra hb
      rw [testBit_of_lt64 hlt (by omega)] at ht
      exact Bool.noConfusion ht
    refine ⟨by omega, hb, ?_⟩
    by_contra hge
    rw [transform_testBit _ _ _ _ _ _ hW (by norm_num) hr.1 hr.2 hb,
      inLattice_bitAt_high hc (64 * w + b) (by omega),
      inLattice_bitAt_high hc (64 * w + b + 1) (by omega), truthTable110_dead] at ht
    exact Bool.noConfusion ht
  · rw [transform_apply _ _ _ _ _ (by norm_num), if_neg hr, hn w (by omega), Nat.zero_testBit] at ht
    exact Bool.noConfusion ht

theorem stepInv_step {N : Nat} {p : packed_buffer} (h1 : 1 ≤ N) (h : StepInv N p) :
    StepInv N (simulate_step p) :=
  ⟨layout_step h.layout, step_inLattice h.layout h.cur h.nxt,
    inLattice_ghost h.cur (layout_groups h.layout h1).1⟩

theorem stepInv_loop {N : Nat} (h1 : 1 ≤ N) (k : Nat) :
    ∀ p, StepInv N p → StepInv N (simulate_loop k p) := by
  induction k with
  | zero => intro p h; exact h
  | succ k ih => intro p h; exact ih _ (stepInv_step h1 h)

theorem stepInv_read (N : Nat) (config : List Char) (h1 : 1 ≤ N) (h2 : N ≤ 2 ^ 64 - 64)
    (hlen : config.length ≤ N) : StepInv N (read_bits_from_file_packed N config) :=
  ⟨read_layout N config h1 h2, read_inLattice N config hlen, fun _ _ => rfl⟩

/-! ## The reduction -/

theorem popcount_le (x : Nat) : popcount x ≤ 64 := by
  unfold popcount
  exact le_trans (List.countP_le_length _) (by simp)

theorem range_block (n : Nat) :
    List.range (64 * (n + 1)) = List.range (64 * n) ++ (List.range 64).map (64 * n + ·) := by
  rw [show 64 * (n + 1) = 64 * n + 64 by ring, List.range_add]

theorem countP_block (buf : Nat → Nat) (frw n : Nat) :
    ((List.range 64).map (64 * n + ·)).countP (cellAt buf frw) = popcount (buf (frw + n)) := by
  rw [List.countP_map]
  unfold popcount
  apply List.countP_congr
  intro b hb
  have hb : b < 64 := List.mem_range.mp hb
  have e1 : (64 * n + b) / 64 = n := by omega
  have e2 : (64 * n + b) % 64 = b := by omega
  simp only [Function.comp, cellAt, e1, e2]

theorem fold_count (buf : Nat → Nat) (frw : Nat) (n : Nat) (hn : 64 * n < 2 ^ 64) :
    (List.range n).foldl (fun one_count i => (one_count + popcount (buf (frw + i))) % 2 ^ 64) 0 =
      (List.range (64 * n)).countP (cellAt buf frw) := by
  induction n with
  | zero => rfl
  | succ n ih =>
    rw [List.range_succ, List.foldl_append, List.foldl_cons, List.foldl_nil, ih (by omega),
      range_block, List.countP_append, countP_block]
    apply Nat.mod_eq_of_lt
    have h1 : (List.range (64 * n)).countP (cellAt buf frw) ≤ 64 * n :=
      le_trans (List.countP_le_length _) (by simp)
    have h2 := popcount_le (buf (frw + n))
    omega

theorem countP_range_cut (q : Nat → Bool) (N M : Nat) (hNM : N ≤ M)
    (hz : ∀ i, N ≤ i → q i = false) :
    (List.range M).countP q = (List.range N).countP q := by
  obtain ⟨d, rfl⟩ := Nat.exists_eq_add_of_le hNM
  rw [List.range_add, List.countP_append, List.countP_map]
  have : (List.range d).countP (q ∘ fun x => N + x) = 0 := by
    rw [List.countP_eq_zero]
    intro a _
    simp [hz (N + a) (by omega)]
  omega

theorem count_getD (c : List Bool) :
    (List.range c.length).countP (fun i => c.getD i false) = c.count true := by
  induction c with
  | nil => rfl
  | cons a c ih =>
    rw [List.length_cons, List.range_succ_eq_map, List.countP_cons, List.countP_map,
      List.count_cons, ← ih]
    have e : ((fun i => (a :: c).getD i false) ∘ Nat.succ) = fun i => c.getD i false := by
      funext i
      rfl
    rw [e, List.getD_cons_zero]
    cases a <;> simp

theorem inLattice_cell_high {N : Nat} {buf : Nat → Nat} (h : InLattice N buf) (i : Nat)
    (hi : N ≤ i) : cellAt buf 8 i = false := by
  by_contra hn
  have := h (8 + i / 64) (i % 64) (by simpa [cellAt] using hn)
  omega

/-- The count that `simulate` prints for a state that satisfies the loop
invariant is the number of live lattice cells of its current buffer. -/
theorem count_ones_lattice {N : Nat} {p : packed_buffer} (h : StepInv N p)
    (h2 : N ≤ 2 ^ 64 - 64) :
    count_ones p = (List.range N).countP (cellAt p.current_buffer 8) := by
  unfold count_ones
  rw [h.layout.first, fold_count _ _ _ (by rw [h.layout.words]; omega), h.layout.words]
  exact countP_range_cut _ _ _ (by omega) (inLattice_cell_high h.cur)

theorem count_ones_clear_excess (p : packed_buffer) : count_ones (clear_excess p) = count_ones p :=
  rfl

theorem simulate_pos (steps : Nat) (p : packed_buffer) (h : p.real_words ≠ 0) :
    simulate steps p =
      (count_ones (simulate_loop steps p), clear_excess (simulate_loop steps p)) := by
  unfold simulate
  rw [if_neg h]
  rfl

theorem read_real_words_pos (N : Nat) (config : List Char) (h1 : 1 ≤ N) (h2 : N ≤ 2 ^ 64 - 64) :
    (read_bits_from_file_packed N config).real_words ≠ 0 := by
  rw [(read_layout N config h1 h2).words]
  omega

/-! ## One step, cell by cell -/

theorem bitAt_cell (buf : Nat → Nat) (i : Nat) : bitAt buf (512 + i) = cellAt buf 8 i := by
  unfold bitAt cellAt
  have e1 : (512 + i) / 64 = 8 + i / 64 := by omega
  have e2 : (512 + i) % 64 = i % 64 := by omega
  rw [e1, e2]

theorem refCell_high (c : List Bool) (i : Nat) (hi : c.length ≤ i) : refCell c i = false := by
  unfold refCell
  have e1 : c.getD i false = false := List.getD_eq_default _ _ hi
  have e2 : c.getD (i + 1) false = false := List.getD_eq_default _ _ (by omega)
  rw [e1, e2, truthTable110_dead]

/-- Cell `i` after one iteration of the step loop, in terms of the lattice `c`
that the current buffer holds and of the two boundary masks. -/
theorem step_cellAt {N : Nat} {p : packed_buffer} (h : StepInv N p) (h1 : 1 ≤ N)
    (c : List Bool) (hlen : c.length = N) (hc : ∀ i, cellAt p.current_buffer 8 i = c.getD i false)
    (i : Nat) :
    cellAt (simulate_step p).current_buffer 8 i =
      (refCell c i && (!decide (i / 64 = 0) || p.firstbit_mask.testBit (i % 64))
        && (!decide (i / 64 = (N - 1) / 64) || p.lastbit_mask.testBit (i % 64))) := by
  have hb : i % 64 < 64 := Nat.mod_lt _ (by norm_num)
  have hT : (transform110_packed_avx p.current_buffer p.next_buffer p.groups p.ghost_offset
      (8 + i / 64)).testBit (i % 64) = refCell c i := by
    rw [h.layout.ghost]
    by_cases hr : 8 + i / 64 < 4 * (2 + p.groups)
    · rw [transform_testBit _ _ _ _ _ _ (inLattice_wordBuf h.cur) (by norm_num) (by omega) hr hb]
      have e0 : 64 * (8 + i / 64) + i % 64 = 512 + i := by omega
      rw [e0, bitAt_cell, show 512 + i + 1 = 512 + (i + 1) by ring, bitAt_cell, hc, hc]
      unfold refCell
      by_cases hi : i = 0
      · subst hi
        rw [if_pos rfl, inLattice_bitAt_low h.cur _ (by norm_num)]
      · rw [if_neg hi, show 512 + i - 1 = 512 + (i - 1) by omega, bitAt_cell, hc]
    · rw [transform_apply _ _ _ _ _ (by norm_num), if_neg (by omega), h.nxt _ (by omega),
        Nat.zero_testBit, refCell_high]
      have := (layout_groups h.layout h1).1
      omega
  unfold cellAt
  rw [step_current, clear_boundary_testBit, hT, h.layout.first, h.layout.last]
  have e1 : (8 + i / 64 = 8) = (i / 64 = 0) := by
    apply propext
    omega
  have e2 : (8 + i / 64 = 8 + (N - 1) / 64) = (i / 64 = (N - 1) / 64) := by
    apply propext
    omega
  simp only [e1, e2]

/-! ## The step on lists of cells -/

theorem refStep_length (c : List Bool) : (refStep c).length = c.length := by
  simp [refStep]

theorem refStep_getD (c : List Bool) (i : Nat) :
    (refStep c).getD i false = (decide (i < c.length) && refCell c i) := by
  by_cases hi : i < c.length
  · rw [List.getD_eq_getElem _ _ (by rw [refStep_length]; exact hi)]
    simp [refStep, refCell, hi]
  · rw [List.getD_eq_default _ _ (by rw [refStep_length]; omega)]
    simp [hi]

theorem set_false_getD (l : List Bool) (j i : Nat) :
    (l.set j false).getD i false = (!decide (i = j) && l.getD i false) := by
  by_cases hij : i = j
  · subst hij
    by_cases hi : i < l.length
    · rw [List.getD_eq_getElem _ _ (by rw [List.length_set]; exact hi)]
      simp
    · rw [List.getD_eq_default _ _ (by rw [List.length_set]; omega)]
      simp
  · have hji : j ≠ i := fun h => hij h.symm
    simp [List.getD_eq_getElem?_getD, List.getElem?_set_ne hji, hij]

theorem designStep_length (c : List Bool) : (designStep c).length = c.length := by
  simp [designStep, refStep_length]

theorem designStep_getD (c : List Bool) (i : Nat) :
    (designStep c).getD i false =
      (!decide (i = c.length - 1) && (!decide (i = 0) && (decide (i < c.length) && refCell c i))) := by
  unfold designStep
  rw [set_false_getD, set_false_getD, refStep_getD]

theorem designIter_length (k : Nat) : ∀ c : List Bool, (designIter k c).length = c.length := by
  induction k with
  | zero => intro c; rfl
  | succ k ih => intro c; rw [designIter, ih, designStep_length]

/-! ## The step loop follows the design step -/

theorem lastbit_clear (idx : Nat) (h : idx % 64 < 6) :
    (not64 (shl64 1 idx &&& 63)).testBit (idx % 64) = false := by
  have h64 : idx % 64 < 64 := by omega
  have e63 : (63 : Nat) = 2 ^ 6 - 1 := rfl
  rw [not64_testBit, Nat.testBit_and, e63, Nat.testBit_two_pow_sub_one]
  unfold shl64
  rw [Nat.testBit_mod_two_pow, Nat.one_shiftLeft, Nat.testBit_two_pow_self]
  simp [h, h64]

theorem rep_step {N : Nat} {p : packed_buffer} {c : List Bool} (h1 : 1 ≤ N) (h : Rep N p c) :
    Rep N (simulate_step p) (designStep c) := by
  refine ⟨stepInv_step h1 h.inv, by rw [designStep_length, h.len], ?_, ?_⟩
  · intro i
    have hb : i % 64 < 64 := Nat.mod_lt _ (by norm_num)
    have hlen := h.len
    rw [step_cellAt h.inv h1 c h.len h.cells i, designStep_getD, h.inv.layout.fmask,
      h.inv.layout.lmask, firstbit_testBit, h.len]
    by_cases hi0 : i = 0
    · subst hi0
      simp
    by_cases hiN : i = N - 1
    · have hz : (refCell c i && (!decide (i / 64 = (N - 1) / 64) ||
          (not64 (shl64 1 (N - 1) &&& 63)).testBit (i % 64))) = false := by
        rcases h.last with hl | hl
        · rw [hiN, lastbit_clear _ hl]
          simp
        · have e1 : c.getD i false = false := by rw [hiN]; exact hl
          have e2 : c.getD (i + 1) false = false := List.getD_eq_default _ _ (by omega)
          unfold refCell
          rw [e1, e2, truthTable110_dead]
          rfl
      rw [Bool.and_assoc, Bool.and_comm _ (!decide (i / 64 = (N - 1) / 64) || _), ← Bool.and_assoc, hz]
      simp [hiN]
    · have hf : (!decide (i / 64 = 0) || (decide (i % 64 < 64) && !decide (i % 64 = 0))) = true := by
        by_cases hq : i / 64 = 0
        · have : ¬ (i % 64 = 0) := by omega
          simp [hb, this]
        · simp [hq]
      have hl : (!decide (i / 64 = (N - 1) / 64) ||
          (not64 (shl64 1 (N - 1) &&& 63)).testBit (i % 64)) = true := by
        by_cases hq : i / 64 = (N - 1) / 64
        · have : (not64 (shl64 1 (N - 1) &&& 63)).testBit (i % 64) = true := by
            by_contra hn
            have := lastbit_testBit (N - 1) (i % 64) hb (by simpa using hn)
            omega
          simp [this]
        · simp [hq]
      rw [hf, hl]
      by_cases hlt : i < N
      · simp [hi0, hiN, hlt]
      · rw [refCell_high c i (by omega)]
        simp
  · right
    rw [designStep_getD, h.len]
    simp

theorem rep_loop {N : Nat} (h1 : 1 ≤ N) (k : Nat) :
    ∀ (p : packed_buffer) (c : List Bool), Rep N p c →
      Rep N (simulate_loop k p) (designIter k c) := by
  induction k with
  | zero => intro p c h; exact h
  | succ k ih => intro p c h; exact ih _ _ (rep_step h1 h)

theorem rep_read (N : Nat) (config : List Char) (h1 : 1 ≤ N) (h2 : N ≤ 2 ^ 64 - 64)
    (hlen : config.length = N)
    (hlast : (N - 1) % 64 < 6 ∨ (tokenBits config).getD (N - 1) false = false) :
    Rep N (read_bits_from_file_packed N config) (tokenBits config) :=
  ⟨stepInv_read N config h1 h2 (le_of_eq hlen), by rw [tokenBits_length, hlen],
    read_cellAt N config, hlast⟩

theorem rep_count {N : Nat} {p : packed_buffer} {c : List Bool} (h : Rep N p c)
    (h2 : N ≤ 2 ^ 64 - 64) : count_ones p = c.count true := by
  rw [count_ones_lattice h.inv h2, ← count_getD, h.len]
  apply List.countP_congr
  intro i _
  rw [h.cells]

theorem loop_first (k : Nat) : ∀ p : packed_buffer,
    (simulate_loop k p).first_real_word = p.first_real_word := by
  induction k with
  | zero => intro p; rfl
  | succ k ih => intro p; rw [simulate_loop, ih]; rfl

theorem simulate_design (N : Nat) (config : List Char) (k : Nat) (h1 : 1 ≤ N)
    (h2 : N ≤ 2 ^ 64 - 64) (hlen : config.length = N)
    (hlast : (N - 1) % 64 < 6 ∨ (tokenBits config).getD (N - 1) false = false) :
    (∀ i, cellAt (simulate k (read_bits_from_file_packed N config)).2.current_buffer
        (simulate k (read_bits_from_file_packed N config)).2.first_real_word i =
          (designIter k (tokenBits config)).getD i false) ∧
      (simulate k (read_bits_from_file_packed N config)).1 =
        (designIter k (tokenBits config)).count true := by
  have hrep := rep_loop h1 k _ _ (rep_read N config h1 h2 hlen hlast)
  rw [simulate_pos _ _ (read_real_words_pos N config h1 h2)]
  constructor
  · intro i
    show cellAt (simulate_loop k (read_bits_from_file_packed N config)).current_buffer
      (simulate_loop k (read_bits_from_file_packed N config)).first_real_word i = _
    rw [hrep.inv.layout.first]
    exact hrep.cells i
  · exact rep_count hrep h2

/-! ## Tokens -/

theorem tokenBits_count (config : List Char) : (tokenBits config).count true = config.count '1' := by
  induction config with
  | nil => rfl
  | cons c cs ih =>
    rw [tokenBits_cons, List.count_cons, List.count_cons, ih]
    by_cases hc : c = '1'
    · simp [hc]
    · simp [hc]

theorem tokenBits_getD (config : List Char) (i : Nat) :
    (tokenBits config).getD i false = true ↔ i < config.length ∧ config.getD i '0' = '1' := by
  induction config generalizing i with
  | nil => simp [tokenBits]
  | cons c cs ih =>
    cases i with
    | zero => simp [tokenBits_cons]
    | succ i =>
      rw [tokenBits_cons, List.getD_cons_succ, List.getD_cons_succ, ih, List.length_cons,
        Nat.add_lt_add_iff_right]

/-! ## The single live cell -/

theorem designIter_dead (k : Nat) : designIter k [false] = [false] := by
  induction k with
  | zero => rfl
  | succ k ih => rw [designIter, show designStep [false] = [false] by decide, ih]

theorem designIter_single (k : Nat) : designIter (k + 1) [true] = [false] := by
  rw [designIter, show designStep [true] = [false] by decide, designIter_dead]

theorem single_cell (steps : Nat) :
    cellAt (simulate steps (read_bits_from_file_packed 1 ['1'])).2.current_buffer
        (simulate steps (read_bits_from_file_packed 1 ['1'])).2.first_real_word 0 =
          decide (steps = 0) ∧
      (simulate steps (read_bits_from_file_packed 1 ['1'])).1 = if steps = 0 then 1 else 0 := by
  have h := simulate_design 1 ['1'] steps (by decide) (by decide) rfl (Or.inl (by decide))
  cases steps with
  | zero => exact ⟨by decide, by decide⟩
  | succ k =>
    have e : tokenBits ['1'] = [true] := by decide
    rw [e, designIter_single] at h
    refine ⟨?_, ?_⟩
    · rw [h.1 0]
      simp
    · rw [h.2]
      simp

/-! ## Results on the specification -/

/-- C1, as stated, fails: for `N = 2`, bits `01` and one step the reference
Rule 110 step makes both cells live (count 2), while `simulate` leaves both
boundary cells dead and reports 0. -/
theorem reference_rule_fails_at_boundary_cells :
    (refIter 1 (tokenBits ['0', '1'])).getD 0 false = true ∧
    (refIter 1 (tokenBits ['0', '1'])).getD 1 false = true ∧
    (refIter 1 (tokenBits ['0', '1'])).count true = 2 ∧
    cellAt (simulate 1 (read_bits_from_file_packed 2 ['0', '1'])).2.current_buffer
      (simulate 1 (read_bits_from_file_packed 2 ['0', '1'])).2.first_real_word 0 = false ∧
    cellAt (simulate 1 (read_bits_from_file_packed 2 ['0', '1'])).2.current_buffer
      (simulate 1 (read_bits_from_file_packed 2 ['0', '1'])).2.first_real_word 1 = false ∧
    (simulate 1 (read_bits_from_file_packed 2 ['0', '1'])).1 = 0 := by
  decide

/-- C1, amended: for `1 ≤ N ≤ 2^64 - 64`, an initial assignment of length `N`
whose last cell is dead or is one the last-bit mask clears (`(N - 1) mod 64 < 6`),
and every step count `k`, each lattice cell of the final buffer equals the cell
of the `k`-th iterate of the step that applies the truth table with dead cells
outside `[0, N)` and then forces the boundary cells 0 and `N - 1` dead; the
reported count is the number of live cells of that state. -/
theorem simulate_follows_design_step (N : Nat) (config : List Char) (k : Nat) (h1 : 1 ≤ N)
    (h2 : N ≤ 2 ^ 64 - 64) (hlen : config.length = N)
    (hlast : (N - 1) % 64 < 6 ∨ (tokenBits config).getD (N - 1) false = false) :
    (∀ i, i < N →
      cellAt (simulate k (read_bits_from_file_packed N config)).2.current_buffer
        (simulate k (read_bits_from_file_packed N config)).2.first_real_word i =
          (designIter k (tokenBits config)).getD i false) ∧
      (simulate k (read_bits_from_file_packed N config)).1 =
        (designIter k (tokenBits config)).count true :=
  ⟨fun i _ => (simulate_design N config k h1 h2 hlen hlast).1 i,
    (simulate_design N config k h1 h2 hlen hlast).2⟩

/-- Scenario A (`N = 8`, bits `00011000`, one step) as an instance of the
amended C1; the count is 3. -/
theorem simulate_follows_design_step_scenario_A :
    (∀ i, i < 8 →
      cellAt (simulate 1 (read_bits_from_file_packed 8
          ['0', '0', '0', '1', '1', '0', '0', '0'])).2.current_buffer
        (simulate 1 (read_bits_from_file_packed 8
          ['0', '0', '0', '1', '1', '0', '0', '0'])).2.first_real_word i =
          (designIter 1 (tokenBits ['0', '0', '0', '1', '1', '0', '0', '0'])).getD i false) ∧
      (simulate 1 (read_bits_from_file_packed 8 ['0', '0', '0', '1', '1', '0', '0', '0'])).1 =
        (designIter 1 (tokenBits ['0', '0', '0', '1', '1', '0', '0', '0'])).count true ∧
      (designIter 1 (tokenBits ['0', '0', '0', '1', '1', '0', '0', '0'])).count true = 3 :=
  ⟨(simulate_follows_design_step 8 ['0', '0', '0', '1', '1', '0', '0', '0'] 1 (by decide)
      (by decide) (by decide) (Or.inr (by decide))).1,
    (simulate_follows_design_step 8 ['0', '0', '0', '1', '1', '0', '0', '0'] 1 (by decide)
      (by decide) (by decide) (Or.inr (by decide))).2, by decide⟩

/-- C2: for a source buffer of 64-bit words, `ghost_offset ≥ 1` and every group
count, every bit `b < 64` of every word `w` of the block range of the
destination is the truth-table value of the source bits at global positions
`64w + b - 1`, `64w + b`, `64w + b + 1`; at `b = 0` the left neighbour is bit 63
of `src[w - 1]` and at `b = 63` the right neighbour is bit 0 of `src[w + 1]`. -/
theorem transform110_bit_exact (src dst : Nat → Nat) (groups ghost_offset w : Nat)
    (hsrc : WordBuf src) (hgo : 1 ≤ ghost_offset) (hw1 : 4 * ghost_offset ≤ w)
    (hw2 : w < 4 * (ghost_offset + groups)) :
    (∀ b, b < 64 →
      (transform110_packed_avx src dst groups ghost_offset w).testBit b =
        truthTable110 (bitAt src (64 * w + b - 1)) (bitAt src (64 * w + b))
          (bitAt src (64 * w + b + 1))) ∧
    (transform110_packed_avx src dst groups ghost_offset w).testBit 0 =
      truthTable110 ((src (w - 1)).testBit 63) ((src w).testBit 0) ((src w).testBit 1) ∧
    (transform110_packed_avx src dst groups ghost_offset w).testBit 63 =
      truthTable110 ((src w).testBit 62) ((src w).testBit 63) ((src (w + 1)).testBit 0) := by
  refine ⟨fun b hb => transform_testBit src dst groups ghost_offset w b hsrc hgo hw1 hw2 hb, ?_, ?_⟩
  · rw [transform_apply _ _ _ _ _ hgo, if_pos ⟨hw1, hw2⟩,
      lane110_testBit _ _ _ _ (hsrc _) (hsrc _) (by norm_num)]
    rfl
  · rw [transform_apply _ _ _ _ _ hgo, if_pos ⟨hw1, hw2⟩,
      lane110_testBit _ _ _ _ (hsrc _) (hsrc _) (by norm_num)]
    rfl

/-- C2 at a concrete source: one group at `ghost_offset = 1` (words 4..7), the
source live only at bit 63 of word 3 and bit 0 of word 8, both in adjacent
blocks; the last word of the group is inspected. -/
theorem transform110_bit_exact_across_blocks :
    (∀ b, b < 64 →
      (transform110_packed_avx (fun w => if w = 3 then 2 ^ 63 else if w = 8 then 1 else 0)
          (fun _ => 0) 1 1 7).testBit b =
        truthTable110
          (bitAt (fun w => if w = 3 then 2 ^ 63 else if w = 8 then 1 else 0) (64 * 7 + b - 1))
          (bitAt (fun w => if w = 3 then 2 ^ 63 else if w = 8 then 1 else 0) (64 * 7 + b))
          (bitAt (fun w => if w = 3 then 2 ^ 63 else if w = 8 then 1 else 0) (64 * 7 + b + 1))) ∧
    (transform110_packed_avx (fun w => if w = 3 then 2 ^ 63 else if w = 8 then 1 else 0)
        (fun _ => 0) 1 1 7).testBit 0 =
      truthTable110 ((if 7 - 1 = 3 then 2 ^ 63 else if 7 - 1 = 8 then 1 else 0 : Nat).testBit 63)
        ((if 7 = 3 then 2 ^ 63 else if 7 = 8 then 1 else 0 : Nat).testBit 0)
        ((if 7 = 3 then 2 ^ 63 else if 7 = 8 then 1 else 0 : Nat).testBit 1) ∧
    (transform110_packed_avx (fun w => if w = 3 then 2 ^ 63 else if w = 8 then 1 else 0)
        (fun _ => 0) 1 1 7).testBit 63 =
      truthTable110 ((if 7 = 3 then 2 ^ 63 else if 7 = 8 then 1 else 0 : Nat).testBit 62)
        ((if 7 = 3 then 2 ^ 63 else if 7 = 8 then 1 else 0 : Nat).testBit 63)
        ((if 7 + 1 = 3 then 2 ^ 63 else if 7 + 1 = 8 then 1 else 0 : Nat).testBit 0) :=
  transform110_bit_exact (fun w => if w = 3 then 2 ^ 63 else if w = 8 then 1 else 0)
    (fun _ => 0) 1 1 7
    (by intro w; show (if w = 3 then 2 ^ 63 else if w = 8 then 1 else 0) < 2 ^ 64
        split_ifs <;> norm_num)
    (by decide) (by decide) (by decide)

/-- C3: for `1 ≤ N ≤ 2^64 - 64`, an initial assignment of length `N` and every
`k`, after `k` iterations of the step loop on the built state every set bit of
the current buffer is at a lattice position in `[0, N)`: the words below
`first_real_word` and above `last_real_word` are zero, the bits of the last
real word from `N mod 64` on are zero when 64 does not divide `N`, and the bit
before cell 0 and the bit after cell `N - 1` are dead. -/
theorem boundary_invariant (N : Nat) (config : List Char) (k : Nat) (h1 : 1 ≤ N)
    (h2 : N ≤ 2 ^ 64 - 64) (hlen : config.length = N) :
    (∀ w b, ((simulate_loop k (read_bits_from_file_packed N config)).current_buffer w).testBit b
        = true → 8 ≤ w ∧ b < 64 ∧ 64 * (w - 8) + b < N) ∧
    (∀ w, w < (simulate_loop k (read_bits_from_file_packed N config)).first_real_word →
      (simulate_loop k (read_bits_from_file_packed N config)).current_buffer w = 0) ∧
    (∀ w, (simulate_loop k (read_bits_from_file_packed N config)).last_real_word < w →
      (simulate_loop k (read_bits_from_file_packed N config)).current_buffer w = 0) ∧
    (N % 64 ≠ 0 → ∀ b, N % 64 ≤ b →
      ((simulate_loop k (read_bits_from_file_packed N config)).current_buffer
        (simulate_loop k (read_bits_from_file_packed N config)).last_real_word).testBit b
          = false) ∧
    bitAt (simulate_loop k (read_bits_from_file_packed N config)).current_buffer
      (64 * (simulate_loop k (read_bits_from_file_packed N config)).first_real_word - 1) = false ∧
    cellAt (simulate_loop k (read_bits_from_file_packed N config)).current_buffer
      (simulate_loop k (read_bits_from_file_packed N config)).first_real_word N = false := by
  have h := stepInv_loop h1 k _ (stepInv_read N config h1 h2 (le_of_eq hlen))
  rw [h.layout.first, h.layout.last]
  refine ⟨h.cur, ?_, ?_, ?_, ?_, ?_⟩
  · intro w hw
    apply Nat.eq_of_testBit_eq
    intro b
    rw [Nat.zero_testBit]
    by_contra hn
    have := h.cur w b (by simpa using hn)
    omega
  · intro w hw
    apply Nat.eq_of_testBit_eq
    intro b
    rw [Nat.zero_testBit]
    by_contra hn
    have := h.cur w b (by simpa using hn)
    omega
  · intro hN b hb
    by_contra hn
    have := h.cur _ b (by simpa using hn)
    omega
  · exact inLattice_bitAt_low h.cur _ (by norm_num)
  · exact inLattice_cell_high h.cur N (le_refl _)

/-- C3 at `N = 8`, bits `00011000`, one step. -/
theorem boundary_invariant_scenario :
    (∀ w b, ((simulate_loop 1 (read_bits_from_file_packed 8
        ['0', '0', '0', '1', '1', '0', '0', '0'])).current_buffer w).testBit b
        = true → 8 ≤ w ∧ b < 64 ∧ 64 * (w - 8) + b < 8) ∧
    bitAt (simulate_loop 1 (read_bits_from_file_packed 8
        ['0', '0', '0', '1', '1', '0', '0', '0'])).current_buffer 511 = false ∧
    cellAt (simulate_loop 1 (read_bits_from_file_packed 8
        ['0', '0', '0', '1', '1', '0', '0', '0'])).current_buffer 8 8 = false :=
  ⟨(boundary_invariant 8 ['0', '0', '0', '1', '1', '0', '0', '0'] 1 (by decide) (by decide)
      (by decide)).1,
    (boundary_invariant 8 ['0', '0', '0', '1', '1', '0', '0', '0'] 1 (by decide) (by decide)
      (by decide)).2.2.2.2.1,
    (boundary_invariant 8 ['0', '0', '0', '1', '1', '0', '0', '0'] 1 (by decide) (by decide)
      (by decide)).2.2.2.2.2⟩

/-- C4: for `N ≤ 2^64 - 64` and an initial assignment of length `N`, `simulate`
with `steps = 0` reports the number of `1` characters of the assignment. -/
theorem zero_steps_count (N : Nat) (config : List Char) (h2 : N ≤ 2 ^ 64 - 64)
    (hlen : config.length = N) :
    (simulate 0 (read_bits_from_file_packed N config)).1 = config.count '1' := by
  by_cases h0 : N = 0
  · subst h0
    have : config = [] := List.length_eq_zero.mp hlen
    subst this
    rfl
  · have h1 : 1 ≤ N := Nat.one_le_iff_ne_zero.mpr h0
    have hinv := stepInv_read N config h1 h2 (le_of_eq hlen)
    rw [simulate_pos _ _ (read_real_words_pos N config h1 h2)]
    show count_ones (read_bits_from_file_packed N config) = _
    rw [count_ones_lattice hinv h2, ← tokenBits_count, ← count_getD, tokenBits_length, hlen]
    apply List.countP_congr
    intro i _
    rw [read_cellAt]

/-- Scenario B (`N = 8`, bits `00011000`, `steps = 0`): the count is 2. -/
theorem zero_steps_count_scenario_B :
    (simulate 0 (read_bits_from_file_packed 8 ['0', '0', '0', '1', '1', '0', '0', '0'])).1 =
        List.count '1' ['0', '0', '0', '1', '1', '0', '0', '0'] ∧
      List.count '1' ['0', '0', '0', '1', '1', '0', '0', '0'] = 2 :=
  ⟨zero_steps_count 8 ['0', '0', '0', '1', '1', '0', '0', '0'] (by decide) (by decide),
    by decide⟩

/-- C5: for `N = 0` the builder yields `real_words = 0`, and `simulate` then
reports 0 for every step count and leaves the record, both buffers included,
as it was, whatever the buffers hold. -/
theorem degenerate_lattice (config : List Char) (steps : Nat) :
    (read_bits_from_file_packed 0 config).real_words = 0 ∧
    simulate steps (read_bits_from_file_packed 0 config) =
      (0, read_bits_from_file_packed 0 config) ∧
    ∀ cur nxt : Nat → Nat,
      simulate steps
          { read_bits_from_file_packed 0 config with current_buffer := cur, next_buffer := nxt } =
        (0, { read_bits_from_file_packed 0 config with
                current_buffer := cur, next_buffer := nxt }) :=
  ⟨rfl, rfl, fun _ _ => rfl⟩

/-- C6, as stated, fails: for `N = 8` and a next buffer with the bit before the
first real bit (bit 63 of word 7), lattice cell 0 and the bit after the last
real bit (bit 8 of word 8) all live, the two mask operations leave positions
`-1` and `N` live and clear lattice cell 0. -/
theorem boundary_masks_hit_cell_zero :
    bitAt (fun w => if w = 7 then 2 ^ 63 else if w = 8 then 257 else 0) 511 = true ∧
    cellAt (fun w => if w = 7 then 2 ^ 63 else if w = 8 then 257 else 0) 8 0 = true ∧
    cellAt (fun w => if w = 7 then 2 ^ 63 else if w = 8 then 257 else 0) 8 8 = true ∧
    bitAt (clear_boundary_bits (read_bits_from_file_packed 8 [])
      (fun w => if w = 7 then 2 ^ 63 else if w = 8 then 257 else 0)) 511 = true ∧
    cellAt (clear_boundary_bits (read_bits_from_file_packed 8 [])
      (fun w => if w = 7 then 2 ^ 63 else if w = 8 then 257 else 0))
      (read_bits_from_file_packed 8 []).first_real_word 8 = true ∧
    cellAt (clear_boundary_bits (read_bits_from_file_packed 8 [])
      (fun w => if w = 7 then 2 ^ 63 else if w = 8 then 257 else 0))
      (read_bits_from_file_packed 8 []).first_real_word 0 = false := by
  decide

/-- C6, amended: for `1 ≤ N ≤ 2^64 - 64` and every contents of the next buffer,
the two mask operations of an iteration force lattice cell 0 to 0, set no bit,
and leave every bit other than lattice cells 0 and `N - 1` as it was; the bits
at lattice positions `-1` and `N` are among those left as they were. -/
theorem boundary_masks_effect (N : Nat) (config : List Char) (buf : Nat → Nat) (h1 : 1 ≤ N)
    (h2 : N ≤ 2 ^ 64 - 64) :
    cellAt (clear_boundary_bits (read_bits_from_file_packed N config) buf)
      (read_bits_from_file_packed N config).first_real_word 0 = false ∧
    (∀ w b, (clear_boundary_bits (read_bits_from_file_packed N config) buf w).testBit b = true →
      (buf w).testBit b = true) ∧
    (∀ w b, b < 64 →
      ¬ (w = (read_bits_from_file_packed N config).first_real_word ∧ b = 0) →
      ¬ (w = (read_bits_from_file_packed N config).last_real_word ∧ b = (N - 1) % 64) →
      (clear_boundary_bits (read_bits_from_file_packed N config) buf w).testBit b =
        (buf w).testBit b) ∧
    (∀ i, i ≠ 0 → i ≠ N - 1 →
      cellAt (clear_boundary_bits (read_bits_from_file_packed N config) buf)
        (read_bits_from_file_packed N config).first_real_word i =
      cellAt buf (read_bits_from_file_packed N config).first_real_word i) ∧
    bitAt (clear_boundary_bits (read_bits_from_file_packed N config) buf)
      (64 * (read_bits_from_file_packed N config).first_real_word - 1) =
        bitAt buf (64 * (read_bits_from_file_packed N config).first_real_word - 1) := by
  have hL := read_layout N config h1 h2
  have key : ∀ w b, b < 64 → ¬ (w = 8 ∧ b = 0) → ¬ (w = 8 + (N - 1) / 64 ∧ b = (N - 1) % 64) →
      (clear_boundary_bits (read_bits_from_file_packed N config) buf w).testBit b =
        (buf w).testBit b := by
    intro w b hb hf hl
    rw [clear_boundary_testBit, hL.first, hL.last, hL.fmask, hL.lmask, firstbit_testBit]
    have e1 : (!decide (w = 8) || (decide (b < 64) && !decide (b = 0))) = true := by
      by_cases hw : w = 8
      · have : ¬ (b = 0) := fun h => hf ⟨hw, h⟩
        simp [hb, this]
      · simp [hw]
    have e2 : (!decide (w = 8 + (N - 1) / 64) ||
        (not64 (shl64 1 (N - 1) &&& 63)).testBit b) = true := by
      by_cases hw : w = 8 + (N - 1) / 64
      · have : (not64 (shl64 1 (N - 1) &&& 63)).testBit b = true := by
          by_contra hn
          exact hl ⟨hw, lastbit_testBit (N - 1) b hb (by simpa using hn)⟩
        simp [this]
      · simp [hw]
    rw [e1, e2]
    simp
  rw [hL.first, hL.last]
  refine ⟨?_, clear_boundary_sub _ _, key, ?_, ?_⟩
  · unfold cellAt
    rw [clear_boundary_testBit, hL.first, hL.fmask, firstbit_testBit]
    simp
  · intro i hi0 hiN
    unfold cellAt
    exact key _ _ (Nat.mod_lt _ (by norm_num)) (by omega) (by omega)
  · unfold bitAt
    exact key _ _ (Nat.mod_lt _ (by norm_num)) (by omega) (by omega)

/-- The amended C6 at `N = 8` and the buffer of the counterexample. -/
theorem boundary_masks_effect_example :
    cellAt (clear_boundary_bits (read_bits_from_file_packed 8 [])
      (fun w => if w = 7 then 2 ^ 63 else if w = 8 then 257 else 0))
      (read_bits_from_file_packed 8 []).first_real_word 0 = false ∧
    bitAt (clear_boundary_bits (read_bits_from_file_packed 8 [])
      (fun w => if w = 7 then 2 ^ 63 else if w = 8 then 257 else 0))
      (64 * (read_bits_from_file_packed 8 []).first_real_word - 1) =
        bitAt (fun w => if w = 7 then 2 ^ 63 else if w = 8 then 257 else 0)
          (64 * (read_bits_from_file_packed 8 []).first_real_word - 1) :=
  ⟨(boundary_masks_effect 8 [] (fun w => if w = 7 then 2 ^ 63 else if w = 8 then 257 else 0)
      (by decide) (by decide)).1,
    (boundary_masks_effect 8 [] (fun w => if w = 7 then 2 ^ 63 else if w = 8 then 257 else 0)
      (by decide) (by decide)).2.2.2.2⟩

/-- C7 fails on the code: for the file `1 11` (`N = 1`, token `11`) and
`steps = 0` the final state has word 8 equal to 3; `simulate` masks the other
buffer and prints 2, while the last real word ANDed with `last_mask` has one
set bit. -/
theorem tail_mask_misses_final_state :
    (read_bits_from_file_packed 1 ['1', '1']).real_words = 1 ∧
    (read_bits_from_file_packed 1 ['1', '1']).last_mask = 1 ∧
    (read_bits_from_file_packed 1 ['1', '1']).current_buffer
      (read_bits_from_file_packed 1 ['1', '1']).last_real_word = 3 ∧
    (simulate 0 (read_bits_from_file_packed 1 ['1', '1'])).1 = 2 ∧
    (simulate 0 (read_bits_from_file_packed 1 ['1', '1'])).2.current_buffer
      (read_bits_from_file_packed 1 ['1', '1']).last_real_word = 3 ∧
    popcount ((read_bits_from_file_packed 1 ['1', '1']).current_buffer
      (read_bits_from_file_packed 1 ['1', '1']).last_real_word &&&
        (read_bits_from_file_packed 1 ['1', '1']).last_mask) = 1 := by
  decide

/-- C8: for `N ≤ 2^64 - 64` and a token `s` of at most `N` arbitrary
characters, after the builder lattice cell `i < N` of the current buffer is
live exactly when `i < |s|` and `s[i]` is the character `1`, every set bit of
the current buffer is at a lattice position below `N`, and the next buffer is
zero. -/
theorem builder_packing (N : Nat) (s : List Char) (hlen : s.length ≤ N) :
    (∀ i, i < N →
      (cellAt (read_bits_from_file_packed N s).current_buffer
        (read_bits_from_file_packed N s).first_real_word i = true ↔
          i < s.length ∧ s.getD i '0' = '1')) ∧
    (∀ w b, ((read_bits_from_file_packed N s).current_buffer w).testBit b = true →
      ∃ i, i < N ∧ w = (read_bits_from_file_packed N s).first_real_word + i / 64 ∧ b = i % 64) ∧
    (∀ w, (read_bits_from_file_packed N s).next_buffer w = 0) := by
  refine ⟨?_, ?_, fun _ => rfl⟩
  · intro i _
    show cellAt (read_bits_from_file_packed N s).current_buffer 8 i = true ↔ _
    rw [read_cellAt, tokenBits_getD]
  · intro w b h
    have := read_inLattice N s hlen w b h
    refine ⟨64 * (w - 8) + b, this.2.2, ?_, ?_⟩
    · show w = 8 + (64 * (w - 8) + b) / 64
      omega
    · omega

/-- C8 at `N = 8` and the short token `01x`. -/
theorem builder_packing_example :
    (∀ i, i < 8 →
      (cellAt (read_bits_from_file_packed 8 ['0', '1', 'x']).current_buffer
        (read_bits_from_file_packed 8 ['0', '1', 'x']).first_real_word i = true ↔
          i < ['0', '1', 'x'].length ∧ ['0', '1', 'x'].getD i '0' = '1')) ∧
    (∀ w b, ((read_bits_from_file_packed 8 ['0', '1', 'x']).current_buffer w).testBit b = true →
      ∃ i, i < 8 ∧ w = (read_bits_from_file_packed 8 ['0', '1', 'x']).first_real_word + i / 64 ∧
        b = i % 64) ∧
    (∀ w, (read_bits_from_file_packed 8 ['0', '1', 'x']).next_buffer w = 0) :=
  builder_packing 8 ['0', '1', 'x'] (by decide)

/-- C9: for `N = 1` with initial bit 1, `simulate` with any `steps ≥ 1` reports 0. -/
theorem scenario_C_output (steps : Nat) (h : 1 ≤ steps) :
    (simulate steps (read_bits_from_file_packed 1 ['1'])).1 = 0 := by
  rw [(single_cell steps).2, if_neg (by omega)]

/-- C9 at `steps = 1`. -/
theorem scenario_C_output_one_step :
    (simulate 1 (read_bits_from_file_packed 1 ['1'])).1 = 0 :=
  scenario_C_output 1 (by decide)

/-- C10, as stated, fails: for `N = 1` with initial bit 1, after one step the
cell is dead and the reported count is 0. -/
theorem single_cell_dies :
    cellAt (simulate 1 (read_bits_from_file_packed 1 ['1'])).2.current_buffer
      (simulate 1 (read_bits_from_file_packed 1 ['1'])).2.first_real_word 0 = false ∧
    (simulate 1 (read_bits_from_file_packed 1 ['1'])).1 = 0 := by
  decide

/-- C10, amended: for `N = 1` with initial bit 1, the cell of the final state
is live and the reported count is 1 exactly when `steps = 0`; for every
`steps ≥ 1` the cell is dead and the count is 0. -/
theorem single_cell_live_only_at_start (steps : Nat) :
    (cellAt (simulate steps (read_bits_from_file_packed 1 ['1'])).2.current_buffer
      (simulate steps (read_bits_from_file_packed 1 ['1'])).2.first_real_word 0 = true ↔
        steps = 0) ∧
    (simulate steps (read_bits_from_file_packed 1 ['1'])).1 = if steps = 0 then 1 else 0 := by
  refine ⟨?_, (single_cell steps).2⟩
  rw [(single_cell steps).1]
  simp

/-! ## Values of the layout and of the masks -/

theorem read_fields (N : Nat) (config : List Char) :
    (read_bits_from_file_packed N config).real_words = ((N + 63) % 2 ^ 64) >>> 6 ∧
    (read_bits_from_file_packed N config).groups =
      ((((N + 63) % 2 ^ 64) >>> 6 + 3) % 2 ^ 64) >>> 2 ∧
    (read_bits_from_file_packed N config).padded_words =
      ((((((N + 63) % 2 ^ 64) >>> 6 + 3) % 2 ^ 64) >>> 2 + 4) <<< 2) % 2 ^ 64 ∧
    (read_bits_from_file_packed N config).ghost_offset = 2 ∧
    (read_bits_from_file_packed N config).first_real_word = 8 ∧
    (read_bits_from_file_packed N config).last_real_word =
      (8 + (if N = 0 then 0 else N - 1) >>> 6) % 2 ^ 64 ∧
    (read_bits_from_file_packed N config).last_mask =
      ((1 <<< (N &&& 63)) - 1) ||| (if N &&& 63 = 0 then 2 ^ 64 - 1 else 0) ∧
    (read_bits_from_file_packed N config).lastbit_mask =
      not64 (shl64 1 (if N = 0 then 0 else N - 1) &&& 63) ∧
    (read_bits_from_file_packed N config).firstbit_mask = not64 1 :=
  ⟨rfl, rfl, rfl, rfl, rfl, rfl, rfl, rfl, rfl⟩

theorem read_padded (N : Nat) (config : List Char) (h2 : N ≤ 2 ^ 64 - 64) :
    (read_bits_from_file_packed N config).real_words = (N + 63) / 64 ∧
    (read_bits_from_file_packed N config).groups = ((N + 63) / 64 + 3) / 4 ∧
    (read_bits_from_file_packed N config).padded_words = 4 * (((N + 63) / 64 + 3) / 4) + 16 := by
  have hN : N + 63 < 2 ^ 64 := by omega
  have hrw : (N + 63) / 64 + 3 < 2 ^ 64 := by omega
  have hpw : (((N + 63) / 64 + 3) / 4 + 4) * 2 ^ 2 < 2 ^ 64 := by omega
  obtain ⟨e1, e2, e3, -⟩ := read_fields N config
  rw [e1, e2, e3]
  simp only [Nat.mod_eq_of_lt hN, Nat.shiftRight_eq_div_pow, Nat.mod_eq_of_lt hrw,
    Nat.shiftLeft_eq, Nat.mod_eq_of_lt hpw]
  refine ⟨trivial, trivial, ?_⟩
  omega

theorem last_mask_value (N : Nat) :
    ((1 <<< (N &&& 63)) - 1) ||| (if N &&& 63 = 0 then 2 ^ 64 - 1 else 0) =
      if N % 64 = 0 then 2 ^ 64 - 1 else 2 ^ (N % 64) - 1 := by
  rw [and63, Nat.one_shiftLeft]
  by_cases h : N % 64 = 0
  · rw [if_pos h, if_pos h, h]
    rfl
  · rw [if_neg h, if_neg h, Nat.or_zero]

theorem lastbit_small (N : Nat) (h1 : 1 ≤ N) (h2 : N ≤ 64) :
    not64 (shl64 1 (if N = 0 then 0 else N - 1) &&& 63) =
      if N ≤ 6 then 2 ^ 64 - 1 - 2 ^ (N - 1) else 2 ^ 64 - 1 := by
  interval_cases N <;> decide

theorem rule_word_testBit (l c r b : Nat) (hb : b < 64) :
    ((c ^^^ r) ||| (not64 l &&& c)).testBit b =
      truthTable110 (l.testBit b) (c.testBit b) (r.testBit b) := by
  rw [Nat.testBit_or, Nat.testBit_xor, Nat.testBit_and, not64_testBit, decide_eq_true hb]
  cases l.testBit b <;> cases c.testBit b <;> cases r.testBit b <;> rfl

theorem and_all_ones (x : Nat) (hx : x < 2 ^ 64) : x &&& (2 ^ 64 - 1) = x := by
  rw [Nat.and_pow_two_sub_one_eq_mod, Nat.mod_eq_of_lt hx]

theorem simulate_loop_succ (k : Nat) : ∀ p : packed_buffer,
    simulate_loop (k + 1) p = simulate_step (simulate_loop k p) := by
  induction k with
  | zero => intro p; rfl
  | succ k ih => intro p; rw [simulate_loop, ih (simulate_step p)]; rfl

theorem loop_fmask (k : Nat) : ∀ p : packed_buffer,
    (simulate_loop k p).firstbit_mask = p.firstbit_mask := by
  induction k with
  | zero => intro p; rfl
  | succ k ih => intro p; rw [simulate_loop, ih]; rfl

theorem step_cell_zero (q : packed_buffer) (h : q.firstbit_mask.testBit 0 = false) :
    cellAt (simulate_step q).current_buffer q.first_real_word 0 = false := by
  unfold cellAt
  rw [step_current, clear_boundary_testBit]
  have e : q.first_real_word + 0 / 64 = q.first_real_word := by omega
  rw [e, show 0 % 64 = 0 from rfl, h]
  simp

/-! ## Frame of the kernel -/

theorem transform_group_frame (src dst : Nat → Nat) (g w : Nat)
    (h : w < 4 * g ∨ 4 * g + 4 ≤ w) : transform_group src dst g w = dst w := by
  simp only [transform_group, STORE_CENTER, _mm256_store_si256]
  rw [if_neg (by omega), if_neg (by omega), if_neg (by omega), if_neg (by omega)]

theorem transform_frame (src dst : Nat → Nat) (groups go w : Nat)
    (h : w < 4 * go ∨ 4 * (go + groups) ≤ w) :
    transform110_packed_avx src dst groups go w = dst w := by
  unfold transform110_packed_avx
  induction groups with
  | zero => rfl
  | succ n ih =>
    rw [List.range'_1_concat, List.foldl_append, List.foldl_cons, List.foldl_nil,
      transform_group_frame _ _ _ _ (by omega), ih (by omega)]

/-! ## Results on the specification, continued -/

/-- C12: for all lanes `left`, `center`, `right` and every bit position
`b < 64`, bit `b` of `RULE110 left center right`, which is lane by lane
`(center XOR right) OR ((NOT left) AND center)`, is the truth-table value of
`(left_b, center_b, right_b)`: 0 for 111, 100 and 000, and 1 for 110, 101, 011,
010 and 001. -/
theorem rule110_identity (left center right : m256i) (b : Nat) (hb : b < 64) :
    ((RULE110 left center right).l0 = (center.l0 ^^^ right.l0) ||| (not64 left.l0 &&& center.l0) ∧
     (RULE110 left center right).l1 = (center.l1 ^^^ right.l1) ||| (not64 left.l1 &&& center.l1) ∧
     (RULE110 left center right).l2 = (center.l2 ^^^ right.l2) ||| (not64 left.l2 &&& center.l2) ∧
     (RULE110 left center right).l3 = (center.l3 ^^^ right.l3) ||| (not64 left.l3 &&& center.l3)) ∧
    ((RULE110 left center right).l0.testBit b =
        truthTable110 (left.l0.testBit b) (center.l0.testBit b) (right.l0.testBit b) ∧
     (RULE110 left center right).l1.testBit b =
        truthTable110 (left.l1.testBit b) (center.l1.testBit b) (right.l1.testBit b) ∧
     (RULE110 left center right).l2.testBit b =
        truthTable110 (left.l2.testBit b) (center.l2.testBit b) (right.l2.testBit b) ∧
     (RULE110 left center right).l3.testBit b =
        truthTable110 (left.l3.testBit b) (center.l3.testBit b) (right.l3.testBit b)) ∧
    (truthTable110 true true true = false ∧ truthTable110 true false false = false ∧
     truthTable110 false false false = false ∧ truthTable110 true true false = true ∧
     truthTable110 true false true = true ∧ truthTable110 false true true = true ∧
     truthTable110 false true false = true ∧ truthTable110 false false true = true) :=
  ⟨⟨rfl, rfl, rfl, rfl⟩,
    ⟨rule_word_testBit _ _ _ b hb, rule_word_testBit _ _ _ b hb, rule_word_testBit _ _ _ b hb,
      rule_word_testBit _ _ _ b hb⟩,
    ⟨rfl, rfl, rfl, rfl, rfl, rfl, rfl, rfl⟩⟩

/-- C12 at concrete lanes and bit 63. -/
theorem rule110_identity_example :
    ((RULE110 ⟨6, 0, 2 ^ 63, 1⟩ ⟨3, 2 ^ 64 - 1, 2 ^ 63, 0⟩ ⟨5, 7, 0, 9⟩).l2.testBit 63 =
      truthTable110 ((2 ^ 63 : Nat).testBit 63) ((2 ^ 63 : Nat).testBit 63)
        ((0 : Nat).testBit 63)) ∧
    (RULE110 ⟨6, 0, 2 ^ 63, 1⟩ ⟨3, 2 ^ 64 - 1, 2 ^ 63, 0⟩ ⟨5, 7, 0, 9⟩).l2 = 2 ^ 63 :=
  ⟨(rule110_identity ⟨6, 0, 2 ^ 63, 1⟩ ⟨3, 2 ^ 64 - 1, 2 ^ 63, 0⟩ ⟨5, 7, 0, 9⟩ 63
      (by decide)).2.1.2.2.1, by decide⟩

/-- C13: for every `N` the `last_mask` computed by the builder is all ones when
64 divides `N` (`N = 0` included), and `2^(N mod 64) - 1` otherwise. -/
theorem tail_mask_value (N : Nat) (config : List Char) :
    (read_bits_from_file_packed N config).last_mask =
      if N % 64 = 0 then 2 ^ 64 - 1 else 2 ^ (N % 64) - 1 :=
  last_mask_value N

/-- C14: `transform110_packed_avx` leaves every word of the destination outside
`[4 * ghost_offset, 4 * (ghost_offset + groups))` as it was, and a step hands
the source on unchanged; with the layout of the builder (`ghost_offset = 2`,
`padded_words = 4 * groups + 16`) the 8 leading and the 8 trailing words of the
destination are untouched. -/
theorem sentinels_never_written (src dst : Nat → Nat) (groups ghost_offset N : Nat)
    (config : List Char) (h2 : N ≤ 2 ^ 64 - 64) :
    (∀ w, w < 4 * ghost_offset ∨ 4 * (ghost_offset + groups) ≤ w →
      transform110_packed_avx src dst groups ghost_offset w = dst w) ∧
    (∀ p : packed_buffer, (simulate_step p).next_buffer = p.current_buffer) ∧
    (read_bits_from_file_packed N config).ghost_offset = 2 ∧
    (read_bits_from_file_packed N config).padded_words =
      4 * (read_bits_from_file_packed N config).groups + 16 ∧
    (∀ w, w < 8 ∨ ((read_bits_from_file_packed N config).padded_words - 8 ≤ w ∧
        w < (read_bits_from_file_packed N config).padded_words) →
      transform110_packed_avx src dst (read_bits_from_file_packed N config).groups
        (read_bits_from_file_packed N config).ghost_offset w = dst w) := by
  obtain ⟨-, e2, e3⟩ := read_padded N config h2
  refine ⟨fun w hw => transform_frame src dst groups ghost_offset w hw, fun _ => rfl, rfl, ?_, ?_⟩
  · rw [e3, e2]
  · intro w hw
    apply transform_frame
    have eg : (read_bits_from_file_packed N config).ghost_offset = 2 := rfl
    rw [e3] at hw
    rw [e2, eg]
    omega

/-- C14 at `N = 300` (two groups, 24 words): word 3 and word 20 of the
destination keep their values. -/
theorem sentinels_never_written_example :
    (transform110_packed_avx (fun _ => 2 ^ 64 - 1) (fun w => w + 1)
      (read_bits_from_file_packed 300 []).groups
      (read_bits_from_file_packed 300 []).ghost_offset 3 = 3 + 1) ∧
    (transform110_packed_avx (fun _ => 2 ^ 64 - 1) (fun w => w + 1)
      (read_bits_from_file_packed 300 []).groups
      (read_bits_from_file_packed 300 []).ghost_offset 20 = 20 + 1) :=
  ⟨(sentinels_never_written (fun _ => 2 ^ 64 - 1) (fun w => w + 1) 0 0 300 []
      (by decide)).2.2.2.2 3 (Or.inl (by decide)),
    (sentinels_never_written (fun _ => 2 ^ 64 - 1) (fun w => w + 1) 0 0 300 []
      (by decide)).2.2.2.2 20 (Or.inr (by decide))⟩

/-- C16: for `N ≤ 2^64 - 64` the builder sets `real_words = ceil(N / 64)`,
`groups = ceil(real_words / 4)`, `ghost_offset = 2`,
`padded_words = 4 * groups + 16`, `first_real_word = 8`, and for `N ≥ 1`
`last_real_word = first_real_word + real_words - 1`, the word of cell `N - 1`. -/
theorem layout_arithmetic (N : Nat) (config : List Char) (h2 : N ≤ 2 ^ 64 - 64) :
    (read_bits_from_file_packed N config).real_words = (N + 63) / 64 ∧
    (N ≤ 64 * (read_bits_from_file_packed N config).real_words ∧
      64 * (read_bits_from_file_packed N config).real_words < N + 64) ∧
    (read_bits_from_file_packed N config).groups =
      ((read_bits_from_file_packed N config).real_words + 3) / 4 ∧
    ((read_bits_from_file_packed N config).real_words ≤
        4 * (read_bits_from_file_packed N config).groups ∧
      4 * (read_bits_from_file_packed N config).groups <
        (read_bits_from_file_packed N config).real_words + 4) ∧
    (read_bits_from_file_packed N config).ghost_offset = 2 ∧
    (read_bits_from_file_packed N config).padded_words =
      4 * (read_bits_from_file_packed N config).groups + 16 ∧
    (read_bits_from_file_packed N config).first_real_word = 8 ∧
    (1 ≤ N →
      (read_bits_from_file_packed N config).last_real_word =
        (read_bits_from_file_packed N config).first_real_word +
          (read_bits_from_file_packed N config).real_words - 1 ∧
      (read_bits_from_file_packed N config).last_real_word =
        (read_bits_from_file_packed N config).first_real_word + (N - 1) / 64) := by
  obtain ⟨e1, e2, e3⟩ := read_padded N config h2
  rw [e3, e2, e1]
  refine ⟨rfl, by omega, rfl, by omega, rfl, rfl, rfl, ?_⟩
  intro h1
  have hL := read_layout N config h1 h2
  rw [hL.last, hL.first]
  omega

/-- C16 at `N = 300`: 5 real words, 2 groups, 24 padded words, last real word 12. -/
theorem layout_arithmetic_example :
    (read_bits_from_file_packed 300 []).real_words = (300 + 63) / 64 ∧
    (read_bits_from_file_packed 300 []).padded_words =
      4 * (read_bits_from_file_packed 300 []).groups + 16 ∧
    (read_bits_from_file_packed 300 []).padded_words = 24 :=
  ⟨(layout_arithmetic 300 [] (by decide)).1, (layout_arithmetic 300 [] (by decide)).2.2.2.2.2.1,
    by decide⟩

/-- C17: for every buffer contents of a record laid out by the builder and
every `k ≥ 1`, after `k` iterations of the step loop lattice cell 0 (bit 0 of
`current_buffer[first_real_word]`) is dead. -/
theorem cell_zero_dead_after_step (N : Nat) (config : List Char) (cur nxt : Nat → Nat)
    (k : Nat) (hk : 1 ≤ k) :
    cellAt (simulate_loop k { read_bits_from_file_packed N config with
        current_buffer := cur, next_buffer := nxt }).current_buffer
      (simulate_loop k { read_bits_from_file_packed N config with
        current_buffer := cur, next_buffer := nxt }).first_real_word 0 = false := by
  obtain ⟨j, rfl⟩ : ∃ j, k = j + 1 := ⟨k - 1, by omega⟩
  rw [loop_first, simulate_loop_succ, ← loop_first j]
  apply step_cell_zero
  rw [loop_fmask]
  show (not64 1).testBit 0 = false
  decide

/-- C17 at `N = 8`, a current buffer with every bit set, one step. -/
theorem cell_zero_dead_after_step_example :
    cellAt (simulate_loop 1 { read_bits_from_file_packed 8 [] with
        current_buffer := fun _ => 2 ^ 64 - 1, next_buffer := fun _ => 2 ^ 64 - 1 }).current_buffer
      (simulate_loop 1 { read_bits_from_file_packed 8 [] with
        current_buffer := fun _ => 2 ^ 64 - 1, next_buffer := fun _ => 2 ^ 64 - 1 }).first_real_word
      0 = false :=
  cell_zero_dead_after_step 8 [] (fun _ => 2 ^ 64 - 1) (fun _ => 2 ^ 64 - 1) 1 (by decide)

/-- C18: for `1 ≤ N ≤ 64` the `lastbit_mask` of the builder is the complement
of `2^(N-1)` when `N ≤ 6`, so that it clears the bit of lattice cell `N - 1`,
and is all ones when `7 ≤ N ≤ 64`, so that ANDing a word with it changes
nothing. -/
theorem lastbit_mask_small (N : Nat) (config : List Char) (h1 : 1 ≤ N) (h2 : N ≤ 64) :
    (N ≤ 6 →
      (read_bits_from_file_packed N config).lastbit_mask = not64 (2 ^ (N - 1)) ∧
      (read_bits_from_file_packed N config).lastbit_mask = 2 ^ 64 - 1 - 2 ^ (N - 1) ∧
      (read_bits_from_file_packed N config).lastbit_mask.testBit (N - 1) = false ∧
      (read_bits_from_file_packed N config).last_real_word =
        (read_bits_from_file_packed N config).first_real_word + (N - 1) / 64 ∧
      (N - 1) % 64 = N - 1) ∧
    (7 ≤ N →
      (read_bits_from_file_packed N config).lastbit_mask = 2 ^ 64 - 1 ∧
      ∀ x, x < 2 ^ 64 → x &&& (read_bits_from_file_packed N config).lastbit_mask = x) := by
  have hm : (read_bits_from_file_packed N config).lastbit_mask =
      if N ≤ 6 then 2 ^ 64 - 1 - 2 ^ (N - 1) else 2 ^ 64 - 1 := lastbit_small N h1 h2
  have hL := read_layout N config h1 (by omega)
  constructor
  · intro h6
    rw [hm, if_pos h6, hL.last, hL.first]
    refine ⟨?_, rfl, ?_, rfl, by omega⟩
    · interval_cases N <;> decide
    · interval_cases N <;> decide
  · intro h7
    rw [hm, if_neg (by omega)]
    exact ⟨rfl, and_all_ones⟩

/-- C18 at `N = 3` (mask clears bit 2) and at `N = 8` (mask is all ones). -/
theorem lastbit_mask_small_example :
    (read_bits_from_file_packed 3 []).lastbit_mask = 2 ^ 64 - 1 - 2 ^ (3 - 1) ∧
    (read_bits_from_file_packed 8 []).lastbit_mask = 2 ^ 64 - 1 :=
  ⟨((lastbit_mask_small 3 [] (by decide) (by decide)).1 (by decide)).2.1,
    ((lastbit_mask_small 8 [] (by decide) (by decide)).2 (by decide)).1⟩

/-! ## Order of the groups and of the reduction -/

theorem transform_group_word (src dst : Nat → Nat) (g w : Nat) :
    transform_group src dst g w =
      if 4 * g ≤ w ∧ w < 4 * g + 4 then transform_group src (fun _ => 0) g w else dst w := by
  by_cases h : 4 * g ≤ w ∧ w < 4 * g + 4
  · rw [if_pos h]
    simp only [transform_group, STORE_CENTER, _mm256_store_si256]
    have hw : w = g * 4 ∨ w = g * 4 + 1 ∨ w = g * 4 + 2 ∨ w = g * 4 + 3 := by omega
    rcases hw with hw | hw | hw | hw <;> subst hw <;> simp
  · rw [if_neg h]
    exact transform_group_frame _ _ _ _ (by omega)

theorem in_order_apply (src : Nat → Nat) (order : List Nat) :
    ∀ (dst : Nat → Nat) (w : Nat),
      transform110_in_order src dst order w =
        if w / 4 ∈ order then transform_group src (fun _ => 0) (w / 4) w else dst w := by
  unfold transform110_in_order
  induction order with
  | nil => intro dst w; simp
  | cons g os ih =>
    intro dst w
    rw [List.foldl_cons, ih]
    by_cases h1 : w / 4 ∈ os
    · rw [if_pos h1, if_pos (List.mem_cons_of_mem _ h1)]
    · rw [if_neg h1, transform_group_word src dst g w]
      by_cases h2 : 4 * g ≤ w ∧ w < 4 * g + 4
      · have e : w / 4 = g := by omega
        rw [if_pos h2, e, if_pos (List.mem_cons_self _ _)]
      · have e : ¬ (w / 4 = g) := by omega
        rw [if_neg h2, if_neg]
        intro hm
        rcases List.mem_cons.mp hm with hm | hm
        · exact e hm
        · exact h1 hm

theorem in_order_perm (src dst : Nat → Nat) {o1 o2 : List Nat} (h : o1.Perm o2) :
    transform110_in_order src dst o1 = transform110_in_order src dst o2 := by
  funext w
  rw [in_order_apply, in_order_apply]
  by_cases hm : w / 4 ∈ o1
  · rw [if_pos hm, if_pos (h.mem_iff.mp hm)]
  · rw [if_neg hm, if_neg (fun h2 => hm (h.mem_iff.mpr h2))]

theorem in_order_ascending (src dst : Nat → Nat) (groups go : Nat) :
    transform110_in_order src dst (List.range' go groups) =
      transform110_packed_avx src dst groups go := rfl

theorem step_in_order_perm (p : packed_buffer) {o : List Nat}
    (h : o.Perm (List.range' p.ghost_offset p.groups)) :
    simulate_step_in_order p o = simulate_step p := by
  unfold simulate_step_in_order simulate_step
  rw [in_order_perm _ _ h, in_order_ascending]

theorem loop_in_order_perm (orders : List (List Nat)) :
    ∀ p : packed_buffer, (∀ o ∈ orders, o.Perm (List.range' p.ghost_offset p.groups)) →
      simulate_loop_in_order orders p = simulate_loop orders.length p := by
  induction orders with
  | nil => intro p _; rfl
  | cons o os ih =>
    intro p h
    rw [simulate_loop_in_order, List.length_cons, simulate_loop,
      step_in_order_perm p (h o (List.mem_cons_self _ _))]
    exact ih _ (fun o2 ho2 => h o2 (List.mem_cons_of_mem _ ho2))

theorem fold_mod_sum {α : Type} (f : α → Nat) (l : List α) :
    ∀ acc, (l.foldl (fun c i => (c + f i) % 2 ^ 64) acc) % 2 ^ 64 =
      (acc + (l.map f).sum) % 2 ^ 64 := by
  induction l with
  | nil => intro acc; simp
  | cons a l ih =>
    intro acc
    rw [List.foldl_cons, ih, List.map_cons, List.sum_cons, Nat.add_mod, Nat.mod_mod,
      ← Nat.add_mod, Nat.add_assoc]

theorem fold_mod_lt {α : Type} (f : α → Nat) (l : List α) :
    ∀ acc, acc < 2 ^ 64 → l.foldl (fun c i => (c + f i) % 2 ^ 64) acc < 2 ^ 64 := by
  induction l with
  | nil => intro acc h; exact h
  | cons a l ih =>
    intro acc _
    rw [List.foldl_cons]
    exact ih _ (Nat.mod_lt _ (by norm_num))

theorem fold_mod_eq {α : Type} (f : α → Nat) (l : List α) :
    l.foldl (fun c i => (c + f i) % 2 ^ 64) 0 = (l.map f).sum % 2 ^ 64 := by
  have h := fold_mod_sum f l 0
  rw [Nat.mod_eq_of_lt (fold_mod_lt f l 0 (by norm_num)), Nat.zero_add] at h
  exact h

theorem count_ones_over_eq (p : packed_buffer) (part : List Nat) :
    count_ones_over p part =
      (part.map (fun i => popcount (p.current_buffer (p.first_real_word + i)))).sum % 2 ^ 64 :=
  fold_mod_eq _ part

theorem count_ones_eq_over (p : packed_buffer) :
    count_ones p = count_ones_over p (List.range p.real_words) := rfl

theorem count_ones_parts_eq (p : packed_buffer) (parts : List (List Nat)) :
    count_ones_parts p parts =
      (parts.flatten.map (fun i => popcount (p.current_buffer (p.first_real_word + i)))).sum
        % 2 ^ 64 := by
  unfold count_ones_parts
  have h := fold_mod_eq (fun part => count_ones_over p part) parts
  have e : (fun total part => (total + count_ones_over p part) % 2 ^ 64) =
      (fun c i => (c + (fun part => count_ones_over p part) i) % 2 ^ 64) := rfl
  rw [e, h, List.map_flatten, List.sum_flatten, List.map_map,
    List.sum_nat_mod ((List.map (List.sum ∘ _) parts)), List.map_map]
  congr 2
  apply List.map_congr_left
  intro part _
  simp only [Function.comp, count_ones_over_eq]

theorem count_ones_parts_perm (p : packed_buffer) (parts : List (List Nat))
    (h : parts.flatten.Perm (List.range p.real_words)) :
    count_ones_parts p parts = count_ones p := by
  rw [count_ones_parts_eq, count_ones_eq_over, count_ones_over_eq,
    (h.map _).sum_eq]

theorem loop_fields (k : Nat) : ∀ p : packed_buffer,
    (simulate_loop k p).real_words = p.real_words ∧
    (simulate_loop k p).groups = p.groups ∧
    (simulate_loop k p).padded_words = p.padded_words ∧
    (simulate_loop k p).ghost_offset = p.ghost_offset ∧
    (simulate_loop k p).first_real_word = p.first_real_word ∧
    (simulate_loop k p).last_real_word = p.last_real_word := by
  induction k with
  | zero => intro p; exact ⟨rfl, rfl, rfl, rfl, rfl, rfl⟩
  | succ k ih => intro p; rw [simulate_loop]; exact ih (simulate_step p)

/-- C11: processing the groups of the kernel in any order (a permutation of
`ghost_offset .. ghost_offset + groups - 1`) gives the destination buffer of
the ascending loop; summing the per-word popcounts over any partition of the
real words, in any order, gives the count of the sequential reduction; hence
the count after any number of steps does not depend on the order in which the
groups are processed in each step. -/
theorem order_independence (src dst : Nat → Nat) (groups ghost_offset : Nat) (order : List Nat)
    (p : packed_buffer) (orders parts : List (List Nat))
    (horder : order.Perm (List.range' ghost_offset groups))
    (horders : ∀ o ∈ orders, o.Perm (List.range' p.ghost_offset p.groups))
    (hparts : parts.flatten.Perm (List.range p.real_words)) :
    transform110_in_order src dst order = transform110_packed_avx src dst groups ghost_offset ∧
    count_ones_parts p parts = count_ones p ∧
    simulate_loop_in_order orders p = simulate_loop orders.length p ∧
    count_ones_parts (simulate_loop_in_order orders p) parts =
      count_ones (simulate_loop orders.length p) := by
  have hl := loop_in_order_perm orders p horders
  refine ⟨?_, count_ones_parts_perm p parts hparts, hl, ?_⟩
  · rw [in_order_perm src dst horder, in_order_ascending]
  · rw [hl]
    apply count_ones_parts_perm
    rw [(loop_fields orders.length p).1]
    exact hparts

/-- C11 at `N = 300` (two groups, five real words): the groups taken as 3, 2
and then as 2, 3, the words summed as the parts 4, 0 and 2, 1, 3. -/
theorem order_independence_example :
    transform110_in_order (fun w => w) (fun _ => 0) [3, 2] =
      transform110_packed_avx (fun w => w) (fun _ => 0) 2 2 ∧
    count_ones_parts (read_bits_from_file_packed 300 ['1', '1']) [[4, 0], [2, 1, 3]] =
      count_ones (read_bits_from_file_packed 300 ['1', '1']) ∧
    simulate_loop_in_order [[3, 2], [2, 3]] (read_bits_from_file_packed 300 ['1', '1']) =
      simulate_loop [[3, 2], [2, 3]].length (read_bits_from_file_packed 300 ['1', '1']) ∧
    count_ones_parts
        (simulate_loop_in_order [[3, 2], [2, 3]] (read_bits_from_file_packed 300 ['1', '1']))
        [[4, 0], [2, 1, 3]] =
      count_ones
        (simulate_loop [[3, 2], [2, 3]].length (read_bits_from_file_packed 300 ['1', '1'])) :=
  order_independence (fun w => w) (fun _ => 0) 2 2 [3, 2]
    (read_bits_from_file_packed 300 ['1', '1']) [[3, 2], [2, 3]] [[4, 0], [2, 1, 3]]
    (by decide) (by decide) (by decide)

/-- C15: for `1 ≤ N ≤ 2^64 - 64`, a token of length at most `N` and every step
count, every buffer index in use is below `padded_words`: the word index of the
packing loop, the words `4g - 1 .. 4g + 4` that the loads and the store of a
group `g` of the block range touch (and `4g - 1` does not wrap), the indices
`first_real_word` and `last_real_word` of the boundary and tail masks, and the
indices `first_real_word + i`, `i < real_words`, of the reduction. -/
theorem in_bounds_access (N : Nat) (config : List Char) (k : Nat) (h1 : 1 ≤ N)
    (h2 : N ≤ 2 ^ 64 - 64) (hlen : config.length ≤ N) :
    (∀ i, i < config.length →
      (i >>> 6) + (read_bits_from_file_packed N config).ghost_offset * 4 <
        (read_bits_from_file_packed N config).padded_words) ∧
    (∀ g, (simulate_loop k (read_bits_from_file_packed N config)).ghost_offset ≤ g →
      g < (simulate_loop k (read_bits_from_file_packed N config)).ghost_offset +
          (simulate_loop k (read_bits_from_file_packed N config)).groups →
      1 ≤ g * 4 ∧
      ∀ w ∈ left_words g ++ center_words g ++ right_words g,
        w < (simulate_loop k (read_bits_from_file_packed N config)).padded_words) ∧
    (simulate_loop k (read_bits_from_file_packed N config)).first_real_word <
      (simulate_loop k (read_bits_from_file_packed N config)).padded_words ∧
    (simulate_loop k (read_bits_from_file_packed N config)).last_real_word <
      (simulate_loop k (read_bits_from_file_packed N config)).padded_words ∧
    (∀ i, i < (simulate_loop k (read_bits_from_file_packed N config)).real_words →
      (simulate_loop k (read_bits_from_file_packed N config)).first_real_word + i <
        (simulate_loop k (read_bits_from_file_packed N config)).padded_words) := by
  obtain ⟨f1, f2, f3, f4, f5, f6⟩ := loop_fields k (read_bits_from_file_packed N config)
  obtain ⟨e1, e2, e3⟩ := read_padded N config h2
  have hL := read_layout N config h1 h2
  rw [f1, f2, f3, f4, f5, f6, hL.ghost, hL.first, hL.last, e3, e2, e1]
  refine ⟨?_, ?_, by omega, by omega, ?_⟩
  · intro i hi
    rw [shr6]
    omega
  · intro g hg1 hg2
    refine ⟨by omega, ?_⟩
    intro w hw
    simp only [left_words, center_words, right_words, List.mem_append, List.mem_cons,
      List.mem_singleton, List.not_mem_nil, or_false] at hw
    omega
  · intro i hi
    omega

/-- C15 at `N = 300` with the token `11` after two steps: 24 padded words, the
last group, 3, touches the words 11 to 16. -/
theorem in_bounds_access_example :
    (∀ w ∈ left_words 3 ++ center_words 3 ++ right_words 3,
      w < (simulate_loop 2 (read_bits_from_file_packed 300 ['1', '1'])).padded_words) ∧
    (simulate_loop 2 (read_bits_from_file_packed 300 ['1', '1'])).last_real_word <
      (simulate_loop 2 (read_bits_from_file_packed 300 ['1', '1'])).padded_words :=
  ⟨((in_bounds_access 300 ['1', '1'] 2 (by decide) (by decide) (by decide)).2.1 3
      (by decide) (by decide)).2,
    (in_bounds_access 300 ['1', '1'] 2 (by decide) (by decide) (by decide)).2.2.2.1⟩

end Rule110
